import Mathlib

/-!
# RISC-V 32I assembler and linker: a shallow embedding

Embedding of `RISCV_32I_Assembler.c` and `Linker.c`.

Conventions of the embedding.
* `uint32_t` values are natural numbers below `2 ^ 32`; every operation that can
  leave that range in C is followed by `% 2 ^ 32`.
* `int` values are integers; the conversion `(uint32_t)x` is `toU32 x`.
* A C string (`char *`) is the list of its characters up to the terminating NUL.
* A `next`-linked chain of nodes is a `List` of nodes in chain order.
* A byte buffer (`uint8_t *`) is a function from byte offset to byte value.
-/

namespace RiscvAsm

/-- C string: the characters before the terminating NUL. -/
abbrev CString := List Char

/-- Conversion of an `int` to `uint32_t`: reduction modulo `2 ^ 32`. -/
def toU32 (x : Int) : Nat := (x % 4294967296).toNat

/-- Conversion of a `long` to `int`: wraps modulo `2 ^ 32` into the signed range. -/
def toInt32 (x : Int) : Int := (x + 2147483648) % 4294967296 - 2147483648

/-! ## C library functions used by the assembler -/

/-- Test `strncmp(p, s, strlen p) == 0`: `s` begins with the characters of `p`. -/
def startsWith : CString → CString → Bool
  | _, [] => true
  | [], _ :: _ => false
  | c :: s, d :: p => c == d && startsWith s p

/-- C `strstr`: the suffix of `hay` at the first occurrence of `needle`, if any. -/
def strstr : CString → CString → Option CString
  | [], needle => if needle.isEmpty then some [] else none
  | c :: rest, needle =>
    if startsWith (c :: rest) needle then some (c :: rest) else strstr rest needle

/-- C `isspace` in the "C" locale. -/
def isspace (c : Char) : Bool :=
  c.toNat = 32 || (9 ≤ c.toNat && c.toNat ≤ 13)

/-- Value of a character as a digit of `strtol`, for bases up to 36. -/
def digitVal (c : Char) : Option Nat :=
  if 48 ≤ c.toNat ∧ c.toNat ≤ 57 then some (c.toNat - 48)
  else if 97 ≤ c.toNat ∧ c.toNat ≤ 122 then some (c.toNat - 97 + 10)
  else if 65 ≤ c.toNat ∧ c.toNat ≤ 90 then some (c.toNat - 65 + 10)
  else none

/-- Digit of `c` in the given base, when `c` is one. -/
def digitIn (base : Nat) (c : Char) : Option Nat :=
  match digitVal c with
  | some d => if d < base then some d else none
  | none => none

/-- The digit loop of `strtol`: consumes the longest run of digits of the base,
accumulating their value; returns the value and the unconsumed rest. -/
def strtol_digits (base : Nat) : CString → Nat → Nat × CString
  | [], acc => (acc, [])
  | c :: s, acc =>
    match digitIn base c with
    | some d => strtol_digits base s (acc * base + d)
    | none => (acc, c :: s)

def LONG_MAX : Int := 9223372036854775807
def LONG_MIN : Int := -9223372036854775808

/-- Skips leading white space, as `strtol` does. -/
def skipSpaces : CString → CString
  | [] => []
  | c :: s => if isspace c then skipSpaces s else c :: s

/-- C `strtol(nptr, &endptr, base)` for a 64-bit `long` (LP64): returns the value
and `endptr`. White space is skipped, an optional sign is read, base 16 accepts
an optional `0x`/`0X` before a hexadecimal digit, the value saturates at
`LONG_MAX`/`LONG_MIN`, and with no digit at all the result is `0` with
`endptr = nptr`. -/
def strtol (nptr : CString) (base : Nat) : Int × CString :=
  let s := skipSpaces nptr
  let neg : Bool := match s with
    | c :: _ => c == '-'
    | [] => false
  let s1 : CString := match s with
    | c :: t => if c == '-' || c == '+' then t else s
    | [] => s
  let s2 : CString := match s1 with
    | z :: x :: d :: t =>
      if base = 16 ∧ z = '0' ∧ (x = 'x' ∨ x = 'X') ∧ (digitIn 16 d).isSome
      then d :: t else s1
    | _ => s1
  match s2 with
  | [] => (0, nptr)
  | c :: _ =>
    if (digitIn base c).isSome then
      let r := strtol_digits base s2 0
      let v : Int := if neg then -(r.1 : Int) else (r.1 : Int)
      (max LONG_MIN (min LONG_MAX v), r.2)
    else (0, nptr)

/-! ## Tables (`RISCV_32I_Assembler.c`, DEFINES) -/

def NUM_PSUEDO_INSTS : Nat := 8

def psuedo_instructions : List CString :=
  ["j".toList, "la".toList, "li".toList, "mv".toList, "neg".toList, "nop".toList,
   "not".toList, "ret".toList]

def NUM_REGS : Nat := 32

def abi_registers : List CString :=
  ["zero".toList, "ra".toList, "sp".toList, "gp".toList, "tp".toList, "t0".toList,
   "t1".toList, "t2".toList, "s0".toList, "s1".toList, "a0".toList, "a1".toList,
   "a2".toList, "a3".toList, "a4".toList, "a5".toList, "a6".toList, "a7".toList,
   "s2".toList, "s3".toList, "s4".toList, "s5".toList, "s6".toList, "s7".toList,
   "s8".toList, "s9".toList, "s10".toList, "s11".toList, "t3".toList, "t4".toList,
   "t5".toList, "t6".toList]

def registers : List CString :=
  ["x0".toList, "x1".toList, "x2".toList, "x3".toList, "x4".toList, "x5".toList,
   "x6".toList, "x7".toList, "x8".toList, "x9".toList, "x10".toList, "x11".toList,
   "x12".toList, "x13".toList, "x14".toList, "x15".toList, "x16".toList,
   "x17".toList, "x18".toList, "x19".toList, "x20".toList, "x21".toList,
   "x22".toList, "x23".toList, "x24".toList, "x25".toList, "x26".toList,
   "x27".toList, "x28".toList, "x29".toList, "x30".toList, "x31".toList]

/-! ## Tools and standards -/

/-- Embedding of `_get_imm_and_ptr`: the number at the head of the token and the remainder
pointer. -/
def _get_imm_and_ptr (imm_str : CString) : Int × CString :=
  if startsWith imm_str "0x".toList then
    let r := strtol (imm_str.drop 2) 16
    (toInt32 r.1, r.2)
  else if startsWith imm_str "0b".toList then
    let r := strtol (imm_str.drop 2) 2
    (toInt32 r.1, r.2)
  else
    let r := strtol imm_str 10
    (toInt32 r.1, r.2)

/-- Embedding of `_get_imm`: the string immediate as an `int`. -/
def _get_imm (imm_str : CString) : Int :=
  if startsWith imm_str "0x".toList then toInt32 (strtol (imm_str.drop 2) 16).1
  else if startsWith imm_str "0b".toList then toInt32 (strtol (imm_str.drop 2) 2).1
  else toInt32 (strtol imm_str 10).1

/-- The loop of `_get_reg`, `i` running from `n - 1` down to `0`. -/
def _get_reg_loop (reg_name : CString) : Nat → Int
  | 0 => -1
  | i + 1 =>
    if (strstr reg_name (registers.getD i [])).isSome
        || (strstr reg_name (abi_registers.getD i [])).isSome then (i : Int)
    else _get_reg_loop reg_name i

/-- Embedding of `_get_reg`: numerical representation of a register, `-1` when none matches. -/
def _get_reg (reg_name : CString) : Int := _get_reg_loop reg_name NUM_REGS

/-- Embedding of `_check_psuedo`: whether the operation name is in the pseudo table. -/
def _check_psuedo (opName : CString) : Bool :=
  (psuedo_instructions.take NUM_PSUEDO_INSTS).any (fun p => p == opName)

/-- Embedding of `_sign_reduce`: `value & mask | sign << (width - 1)` on `uint32_t`. -/
def _sign_reduce (value : Nat) (width : Nat) : Nat :=
  let sign := value >>> 30
  let mask := (1 <<< (width - 1)) - 1
  ((value &&& mask) ||| ((sign <<< (width - 1)) % 4294967296))

/-! ## Bind methods -/

def _bind_opcode (instr opcode : Nat) : Nat := instr ||| (opcode &&& 0x7F)

def _bind_rd (instr rd : Nat) : Nat := instr ||| ((rd &&& 0x1F) <<< 7)

def _bind_funct3 (instr funct3 : Nat) : Nat := instr ||| ((funct3 &&& 0x7) <<< 12)

def _bind_rs1 (instr rs1 : Nat) : Nat := instr ||| ((rs1 &&& 0x1F) <<< 15)

def _bind_rs2 (instr rs2 : Nat) : Nat := instr ||| ((rs2 &&& 0x1F) <<< 20)

def _bind_funct7 (instr funct7 : Nat) : Nat := instr ||| ((funct7 &&& 0x7F) <<< 25)

def _bind_imm_i_type (instr immediate : Nat) : Nat :=
  let immediate := _sign_reduce immediate 12
  instr ||| ((immediate &&& 0xFFF) <<< 20)

def _bind_shamt_i_type (instr shamt : Nat) : Nat := instr ||| ((shamt &&& 0x1F) <<< 20)

def _bind_shamt_srai (instr shamt : Nat) : Nat :=
  let shamt := shamt &&& 0x1F
  let shamt := shamt ||| 0x20
  instr ||| (shamt <<< 20)

def _bind_imm_s_type (instr immediate : Nat) : Nat :=
  let immediate := _sign_reduce immediate 12
  let im4_0 := immediate &&& 0x1F
  let im11_5 := (immediate >>> 5) &&& 0x7F
  instr ||| ((im4_0 <<< 7) ||| (im11_5 <<< 25))

def _bind_imm_b_type (instr immediate : Nat) : Nat :=
  let immediate := _sign_reduce immediate 12
  let im4_1 := (immediate >>> 1) &&& 0xF
  let im10_5 := (immediate >>> 5) &&& 0x3F
  let im11 := (immediate >>> 11) &&& 1
  let im12 := (immediate >>> 12) &&& 1
  instr ||| ((im11 <<< 7) ||| (im4_1 <<< 8) ||| (im10_5 <<< 25) ||| (im12 <<< 31))

def _bind_imm_u_type (instr immediate : Nat) : Nat :=
  instr ||| (immediate &&& 0xFFFFF000)

def _bind_imm_j_type (instr immediate : Nat) : Nat :=
  let immediate := _sign_reduce immediate 21
  let im10_1 := (immediate >>> 1) &&& 0x3FF
  let im19_12 := (immediate >>> 12) &&& 0xFF
  let im11 := (immediate >>> 11) &&& 1
  let im20 := (immediate >>> 20) &&& 1
  instr ||| ((im19_12 <<< 12) ||| (im11 <<< 20) ||| (im10_1 <<< 21) ||| (im20 <<< 31))

/-! ## Data model (`RISCV_32I_Assembler.h`) -/

inductive eLinkerCode where
  | LINKER_NONE
  | LINKER_JAL
  | LINKER_BRANCH
  | LINKER_LA_AUIPC
  | LINKER_LA_ADDI
  | LINKER_ALIGN
  | LINKER_SPACE
  deriving DecidableEq, Repr

/-- Embedding of `struct sAssembledData` without its `next` link; `data` holds the bytes of
the payload buffer (empty for a NULL pointer). -/
structure sAssembledData where
  data : List Nat
  data_len : Nat
  label : Option CString
  arg_n : Nat
  linker_code : eLinkerCode
  deriving DecidableEq, Repr

/-- Embedding of `struct sAssembledInstruction` without its `next` link. -/
structure sAssembledInstruction where
  binary : Nat
  target_label : Option CString
  label : Option CString
  linker_code : eLinkerCode
  deriving DecidableEq, Repr

/-- Embedding of `struct sAssembledProgram`: the two chains, in chain order. -/
structure sAssembledProgram where
  data : List sAssembledData
  text : List sAssembledInstruction
  deriving DecidableEq, Repr

/-- The data-directive line types handled by `_data_to_binary`. -/
inductive DataType where
  | ALIGN
  | ASCIIZ
  | SPACE
  | WORD
  deriving DecidableEq, Repr

/-- A node as `calloc` returns it: every field zero. -/
def callocInstruction : sAssembledInstruction :=
  { binary := 0, target_label := none, label := none, linker_code := .LINKER_NONE }

/-- A data node as `calloc` returns it: every field zero. -/
def callocData : sAssembledData :=
  { data := [], data_len := 0, label := none, arg_n := 0, linker_code := .LINKER_NONE }

/-! ## Encoders

An operand read `struct_args.args[k]` is `args[k]?`. Reading an operand the
line does not have is undefined in C: the array of `_token_list_to_array` holds
exactly the tokens of the line, with no NULL after them. The encoders return
`none` there, the `jal` branch included. -/

/-- Embedding of `_assemble_r_type`. -/
def _assemble_r_type (binary : Nat) (args : List CString)
    (opcode funct3 funct7 : Nat) : Option Nat := do
  let rd ← args[1]?
  let rs1 ← args[2]?
  let rs2 ← args[3]?
  let binary := _bind_opcode binary opcode
  let binary := _bind_rd binary (toU32 (_get_reg rd))
  let binary := _bind_funct3 binary funct3
  let binary := _bind_rs1 binary (toU32 (_get_reg rs1))
  let binary := _bind_rs2 binary (toU32 (_get_reg rs2))
  let binary := _bind_funct7 binary funct7
  pure binary

/-- Embedding of `_assemble_i_type`. -/
def _assemble_i_type (binary : Nat) (args : List CString)
    (opcode funct3 : Nat) : Option Nat := do
  let rd ← args[1]?
  let rs1 ← args[2]?
  let imm ← args[3]?
  let binary := _bind_opcode binary opcode
  let binary := _bind_rd binary (toU32 (_get_reg rd))
  let binary := _bind_funct3 binary funct3
  let binary := _bind_rs1 binary (toU32 (_get_reg rs1))
  let binary := _bind_imm_i_type binary (toU32 (_get_imm imm))
  pure binary

/-- The shift-immediate branches `slli`, `srli`, `srai` of
`_instruction_to_binary`; `srai` selects `_bind_shamt_srai`. -/
def assemble_shift (binary : Nat) (args : List CString) (funct3 : Nat)
    (srai : Bool) : Option Nat := do
  let rd ← args[1]?
  let rs1 ← args[2]?
  let imm ← args[3]?
  let binary := _bind_opcode binary 0x13
  let binary := _bind_rd binary (toU32 (_get_reg rd))
  let binary := _bind_funct3 binary funct3
  let binary := _bind_rs1 binary (toU32 (_get_reg rs1))
  let binary := if srai then _bind_shamt_srai binary (toU32 (_get_imm imm))
    else _bind_shamt_i_type binary (toU32 (_get_imm imm))
  pure binary

/-- The `lw` and `jalr` branches of `_instruction_to_binary`. -/
def assemble_load (binary : Nat) (args : List CString) (opcode funct3 : Nat) :
    Option Nat := do
  let rd ← args[1]?
  let mem ← args[2]?
  let r := _get_imm_and_ptr mem
  let imm := r.1
  let rs1 := r.2
  let binary := _bind_opcode binary opcode
  let binary := _bind_rd binary (toU32 (_get_reg rd))
  let binary := _bind_funct3 binary funct3
  let binary := _bind_rs1 binary (toU32 (_get_reg rs1))
  let binary := _bind_imm_i_type binary (toU32 imm)
  pure binary

/-- The `sw` branch of `_instruction_to_binary`. -/
def assemble_store (binary : Nat) (args : List CString) : Option Nat := do
  let rs1 ← args[1]?
  let mem ← args[2]?
  let r := _get_imm_and_ptr mem
  let imm := r.1
  let rs2 := r.2
  let binary := _bind_opcode binary 0x23
  let binary := _bind_rs1 binary (toU32 (_get_reg rs1))
  let binary := _bind_funct3 binary 0x2
  let binary := _bind_rs2 binary (toU32 (_get_reg rs2))
  let binary := _bind_imm_s_type binary (toU32 imm)
  pure binary

/-- The `beq` and `bne` branches of `_instruction_to_binary`. -/
def assemble_branch (ai : sAssembledInstruction) (args : List CString)
    (funct3 : Nat) : Option sAssembledInstruction := do
  let rs1 ← args[1]?
  let rs2 ← args[2]?
  let target ← args[3]?
  let binary := _bind_opcode ai.binary 0x63
  let binary := _bind_rs1 binary (toU32 (_get_reg rs1))
  let binary := _bind_rs2 binary (toU32 (_get_reg rs2))
  let binary := _bind_funct3 binary funct3
  pure { ai with binary := binary, target_label := some target,
                 linker_code := .LINKER_BRANCH }

/-- The `jal` branch of `_instruction_to_binary`. Both `args[1]` and `args[2]`
are read before the test `arg2 == NULL`; the token array holds exactly the
tokens of the line and a token is never NULL, so with fewer than three tokens the
read is past the array and the embedding has no result, and with three tokens
the test fails and the `else` arm runs. -/
def assemble_jal (ai : sAssembledInstruction) (args : List CString) :
    Option sAssembledInstruction := do
  let arg1 ← args[1]?
  let arg2 ← args[2]?
  let binary := _bind_opcode ai.binary 0x6F
  let binary := _bind_rd binary (toU32 (_get_reg arg1))
  pure { ai with binary := binary, target_label := some arg2,
                 linker_code := .LINKER_JAL }

/-- The `lui` and `auipc` branches of `_instruction_to_binary`. -/
def assemble_upper (binary : Nat) (args : List CString) (opcode : Nat) :
    Option Nat := do
  let rd ← args[1]?
  let imm ← args[2]?
  let binary := _bind_opcode binary opcode
  let binary := _bind_rd binary (toU32 (_get_reg rd))
  let binary := _bind_imm_u_type binary (toU32 (_get_imm imm))
  pure binary

/-- Embedding of `_instruction_to_binary`: the encoded instruction of one line. An
unrecognised operation name returns the zeroed node. -/
def _instruction_to_binary (args : List CString) : Option sAssembledInstruction :=
  match args[0]? with
  | none => none
  | some opName =>
    let ai := callocInstruction
    let setb : Nat → sAssembledInstruction := fun b => { ai with binary := b }
    if opName = "add".toList then (_assemble_r_type ai.binary args 0x33 0x0 0x00).map setb
    else if opName = "sub".toList then (_assemble_r_type ai.binary args 0x33 0x0 0x20).map setb
    else if opName = "xor".toList then (_assemble_r_type ai.binary args 0x33 0x4 0x00).map setb
    else if opName = "or".toList then (_assemble_r_type ai.binary args 0x33 0x6 0x00).map setb
    else if opName = "and".toList then (_assemble_r_type ai.binary args 0x33 0x7 0x00).map setb
    else if opName = "sll".toList then (_assemble_r_type ai.binary args 0x33 0x1 0x00).map setb
    else if opName = "srl".toList then (_assemble_r_type ai.binary args 0x33 0x5 0x00).map setb
    else if opName = "sra".toList then (_assemble_r_type ai.binary args 0x33 0x5 0x20).map setb
    else if opName = "slt".toList then (_assemble_r_type ai.binary args 0x33 0x2 0x00).map setb
    else if opName = "addi".toList then (_assemble_i_type ai.binary args 0x13 0x0).map setb
    else if opName = "xori".toList then (_assemble_i_type ai.binary args 0x13 0x4).map setb
    else if opName = "ori".toList then (_assemble_i_type ai.binary args 0x13 0x6).map setb
    else if opName = "andi".toList then (_assemble_i_type ai.binary args 0x13 0x7).map setb
    else if opName = "slti".toList then (_assemble_i_type ai.binary args 0x13 0x2).map setb
    else if opName = "slli".toList then (assemble_shift ai.binary args 0x1 false).map setb
    else if opName = "srli".toList then (assemble_shift ai.binary args 0x5 false).map setb
    else if opName = "srai".toList then (assemble_shift ai.binary args 0x5 true).map setb
    else if opName = "lw".toList then (assemble_load ai.binary args 0x3 0x2).map setb
    else if opName = "sw".toList then (assemble_store ai.binary args).map setb
    else if opName = "beq".toList then assemble_branch ai args 0x0
    else if opName = "bne".toList then assemble_branch ai args 0x1
    else if opName = "jalr".toList then (assemble_load ai.binary args 0x67 0x0).map setb
    else if opName = "jal".toList then assemble_jal ai args
    else if opName = "lui".toList then (assemble_upper ai.binary args 0x37).map setb
    else if opName = "auipc".toList then (assemble_upper ai.binary args 0x17).map setb
    else some ai

/-- Embedding of `_psuedo_to_binary`: the chain of one or two instructions a pseudo
instruction expands to, in chain order. A name with no branch of its own returns
the zeroed node. -/
def _psuedo_to_binary (args : List CString) : Option (List sAssembledInstruction) :=
  match args[0]? with
  | none => none
  | some psuedoName =>
    if psuedoName = "j".toList then do
      let a1 ← args[1]?
      let i ← _instruction_to_binary ["jal".toList, "x0".toList, a1]
      pure [i]
    else if psuedoName = "la".toList then do
      let a1 ← args[1]?
      let i ← _instruction_to_binary ["auipc".toList, a1, "0".toList]
      let a2 ← args[2]?
      let i := { i with linker_code := .LINKER_LA_AUIPC, target_label := some a2 }
      let n ← _instruction_to_binary ["addi".toList, a1, a1, "0".toList]
      let n := { n with linker_code := .LINKER_LA_AUIPC, target_label := some a2 }
      pure [i, n]
    else if psuedoName = "li".toList then do
      let a1 ← args[1]?
      let a2 ← args[2]?
      let i ← _instruction_to_binary ["addi".toList, a1, "x0".toList, a2]
      let imm := toU32 (_get_imm a2) >>> 12
      if imm ≠ 0 then do
        let n ← _instruction_to_binary ["lui".toList, a1, a2]
        pure [i, n]
      else pure [i]
    else if psuedoName = "mv".toList then do
      let a1 ← args[1]?
      let a2 ← args[2]?
      let i ← _instruction_to_binary ["addi".toList, a1, a2, "0".toList]
      pure [i]
    else if psuedoName = "neg".toList then do
      let a1 ← args[1]?
      let a2 ← args[2]?
      let i ← _instruction_to_binary ["sub".toList, a1, "x0".toList, a2]
      pure [i]
    else if psuedoName = "nop".toList then do
      let i ← _instruction_to_binary ["addi".toList, "x0".toList, "x0".toList, "0".toList]
      pure [i]
    else if psuedoName = "ret".toList then do
      let i ← _instruction_to_binary ["jalr".toList, "x0".toList, "x1".toList, "0".toList]
      pure [i]
    else some [callocInstruction]

/-- The four bytes of a `uint32_t`, least significant first, as the `WORD`
case stores them. -/
def wordBytes (value : Nat) : List Nat :=
  [(value >>> 0) % 256, (value >>> 8) % 256, (value >>> 16) % 256, (value >>> 24) % 256]

/-- C `strtok(str, "\"")`, first call: the first run of characters other than
the double quote, NULL (`none`) when there is none. -/
def strtok_quote (str : CString) : Option CString :=
  let s := str.dropWhile (fun c => c == Char.ofNat 34)
  if s.isEmpty then none else some (s.takeWhile (fun c => c != Char.ofNat 34))

/-- Embedding of `_data_to_binary`. With an empty token array the `WORD` case
computes `len - 1` in `size_t`, which wraps; the embedding has no result there. -/
def _data_to_binary (args : List CString) (data_type : DataType) :
    Option sAssembledData :=
  match data_type with
  | .ALIGN => do
    let a ← args[1]?
    pure { callocData with arg_n := toU32 (_get_imm a), linker_code := .LINKER_ALIGN }
  | .ASCIIZ => do
    let a ← args[1]?
    let str ← strtok_quote a
    pure { callocData with data := str.map (fun c => c.toNat % 256) ++ [0],
                           data_len := str.length + 1 }
  | .SPACE => do
    let a ← args[1]?
    pure { callocData with arg_n := toU32 (_get_imm a), linker_code := .LINKER_SPACE }
  | .WORD =>
    if args.length = 0 then none
    else
      pure { callocData with
        data := (args.drop 1).flatMap (fun a => wordBytes (toU32 (_get_imm a))),
        data_len := (args.length - 1) * 4 }

/-! ## Program assembler -/

/-- Modelled from the spec: the classification of a line, declared in `parser.h`
(not part of the sources): a segment-directive marker (`DATA`, `TEXT`), a
data-directive kind (`ALIGN`, `ASCIIZ`, `SPACE`, `WORD`), or the instruction
marker (`INST`). The tests `type > WORD` and `type < INST` of `assemble_program`
separate the data-directive kinds from the instruction marker. -/
inductive LineType where
  | DATA
  | TEXT
  | ALIGN
  | ASCIIZ
  | SPACE
  | WORD
  | INST
  deriving DecidableEq, Repr

/-- The data-directive kind of a line type, when `type > WORD` is false. -/
def LineType.dataType? : LineType → Option DataType
  | .ALIGN => some .ALIGN
  | .ASCIIZ => some .ASCIIZ
  | .SPACE => some .SPACE
  | .WORD => some .WORD
  | _ => none

/-- Modelled from the spec: `struct line` of `parser.h` without its `next` link:
line type, optional label, ordered token list. -/
structure line where
  type : LineType
  label : Option CString
  token_listhead : List CString
  deriving DecidableEq, Repr

inductive eAssemblerState where
  | S_UNCLASSIFIED
  | S_DATA
  | S_TEXT
  deriving DecidableEq, Repr

/-- The loop variables of `assemble_program`: state and the two chains built so
far. -/
structure AssemblerLoop where
  state : eAssemblerState
  data : List sAssembledData
  text : List sAssembledInstruction
  deriving DecidableEq, Repr

/-- The assignment `curr->label = line->label` guarded by `line->label != NULL`,
on the head of a chain. -/
def set_head_label (label : Option CString) :
    List sAssembledInstruction → List sAssembledInstruction
  | [] => []
  | i :: rest =>
    match label with
    | some l => { i with label := some l } :: rest
    | none => i :: rest

/-- One pass of the loop of `assemble_program`. -/
def assemble_line (st : AssemblerLoop) (l : line) : Option AssemblerLoop :=
  if l.type = .DATA then some { st with state := .S_DATA }
  else if l.type = .TEXT then some { st with state := .S_TEXT }
  else
    match st.state with
    | .S_UNCLASSIFIED => some st
    | .S_DATA =>
      match l.type.dataType? with
      | none => some st
      | some data_type => do
        let curr_data ← _data_to_binary l.token_listhead data_type
        let curr_data :=
          match l.label with
          | some lab => { curr_data with label := some lab }
          | none => curr_data
        pure { st with data := st.data ++ [curr_data] }
    | .S_TEXT =>
      if l.type ≠ .INST then some st
      else do
        let opName ← l.token_listhead[0]?
        let curr_instruction ←
          if _check_psuedo opName then _psuedo_to_binary l.token_listhead
          else (_instruction_to_binary l.token_listhead).map (fun i => [i])
        pure { st with text := st.text ++ set_head_label l.label curr_instruction }

/-- The loop of `assemble_program` over the remaining lines. -/
def assemble_lines : AssemblerLoop → List line → Option AssemblerLoop
  | st, [] => some st
  | st, l :: rest =>
    match assemble_line st l with
    | some st1 => assemble_lines st1 rest
    | none => none

/-- Embedding of `assemble_program`. -/
def assemble_program (lines : List line) : Option sAssembledProgram :=
  (assemble_lines { state := .S_UNCLASSIFIED, data := [], text := [] } lines).map
    (fun st => { data := st.data, text := st.text })

/-! ## Linker (`Linker.c`) -/

def DATA_ADDRESS : Nat := 0x10000000
def TEXT_ADDRESS : Nat := 0x00400000

/-- Embedding of `struct sLinkedLabel` without its `next` link. -/
structure sLinkedLabel where
  label : CString
  address : Nat
  deriving DecidableEq, Repr

/-- A `uint8_t` buffer: the byte at each offset. -/
abbrev Segment := Nat → Nat

/-- The assignment `seg[idx] = val`. -/
def storeByte (seg : Segment) (idx val : Nat) : Segment :=
  fun k => if k = idx then val else seg k

/-- The copy loop `for (i = 0; i < data_len; i++) seg[base + i] = data[i]`, the
index computed in `uint32_t`. -/
def storeBytes (seg : Segment) (base : Nat) (data : List Nat) : Nat → Segment
  | 0 => seg
  | i + 1 =>
    storeByte (storeBytes seg base data i) ((base + i) % 4294967296) (data.getD i 0)

/-- State of the data loop: running address, data segment, label list. -/
structure DataLoopState where
  address : Nat
  data_segment : Segment
  labels : List sLinkedLabel

/-- The address after the `data_len`, align and space adjustments of one pass
of the data loop. -/
def data_node_address (address : Nat) (data_node : sAssembledData) : Nat :=
  let address := (address + data_node.data_len) % 4294967296
  let n := data_node.arg_n
  let address :=
    if data_node.linker_code = .LINKER_ALIGN then
      let rem := address % ((1 <<< n) % 4294967296)
      if rem > 0 then (address + ((1 <<< n) % 4294967296 - rem)) % 4294967296
      else address
    else address
  if data_node.linker_code = .LINKER_SPACE then (address + n) % 4294967296
  else address

/-- Appends a label node at the tail of the label list when the item has a
label. -/
def add_label (labels : List sLinkedLabel) (label : Option CString) (address : Nat) :
    List sLinkedLabel :=
  match label with
  | some l => labels ++ [{ label := l, address := address }]
  | none => labels

/-- One pass of the data loop of `link_program`. -/
def link_data_node (st : DataLoopState) (data_node : sAssembledData) : DataLoopState :=
  let address := data_node_address st.address data_node
  { address := address,
    data_segment :=
      storeBytes st.data_segment ((address + 4294967296 - DATA_ADDRESS) % 4294967296)
        data_node.data data_node.data_len,
    labels := add_label st.labels data_node.label address }

/-- The data loop of `link_program`. -/
def link_data_loop (st : DataLoopState) (data : List sAssembledData) : DataLoopState :=
  data.foldl link_data_node st

/-- The first text loop of `link_program`: label collection. -/
def link_text_labels : Nat → List sLinkedLabel → List sAssembledInstruction →
    List sLinkedLabel
  | _, labels, [] => labels
  | address, labels, text_node :: rest =>
    let address := (address + 4) % 4294967296
    link_text_labels address (add_label labels text_node.label address) rest

/-- The search loop over the label list: the address of the first node whose
label compares equal to the target. -/
def find_label : List sLinkedLabel → CString → Option Nat
  | [], _ => none
  | label_node :: rest, target =>
    if label_node.label = target then some label_node.address else find_label rest target

/-- The `switch` on the linker code in the last loop: binds the relative address
into the immediate field the code selects. -/
def apply_relocation (text_node : sAssembledInstruction) (relative_addr : Nat) :
    sAssembledInstruction :=
  match text_node.linker_code with
  | .LINKER_JAL =>
    { text_node with binary := _bind_imm_j_type text_node.binary relative_addr }
  | .LINKER_BRANCH =>
    { text_node with binary := _bind_imm_b_type text_node.binary relative_addr }
  | .LINKER_LA_AUIPC =>
    { text_node with binary := _bind_imm_u_type text_node.binary (relative_addr >>> 12) }
  | .LINKER_LA_ADDI =>
    { text_node with binary := _bind_imm_i_type text_node.binary relative_addr }
  | _ => text_node

/-- The relocation of one instruction in the last loop. When the search loop
finds no label, `target_address` keeps its uninitialised content, which the
embedding takes from `uninit` at the current address. -/
def relocate (uninit : Nat → Nat) (labels : List sLinkedLabel) (address : Nat)
    (text_node : sAssembledInstruction) : sAssembledInstruction :=
  match text_node.target_label with
  | none => text_node
  | some target =>
    let target_address :=
      match find_label labels target with
      | some a => a
      | none => uninit address % 4294967296
    let relative_addr := (target_address + 4294967296 - address) % 4294967296
    apply_relocation text_node relative_addr

/-- The four stores of an instruction word into the text segment. -/
def emit_word (seg : Segment) (address : Nat) (binary : Nat) : Segment :=
  let off := (address + 4294967296 - TEXT_ADDRESS) % 4294967296
  let seg := storeByte seg off (binary % 256)
  let seg := storeByte seg ((off + 1) % 4294967296) ((binary >>> 8) % 256)
  let seg := storeByte seg ((off + 2) % 4294967296) ((binary >>> 16) % 256)
  storeByte seg ((off + 3) % 4294967296) ((binary >>> 24) % 256)

/-- The last loop of `link_program`: relocation and emission. Returns the text
segment and the chain of instructions as left in memory. -/
def link_last_loop (uninit : Nat → Nat) (labels : List sLinkedLabel) :
    Nat → Segment → List sAssembledInstruction → Segment × List sAssembledInstruction
  | _, seg, [] => (seg, [])
  | address, seg, text_node :: rest =>
    let node := relocate uninit labels address text_node
    let seg := emit_word seg address node.binary
    let r := link_last_loop uninit labels ((address + 4) % 4294967296) seg rest
    (r.1, node :: r.2)

/-- What `link_program` leaves behind: both segments, the instruction chain with
its patched words, and the label list it built before freeing it. -/
structure LinkResult where
  data_segment : Segment
  text_segment : Segment
  text : List sAssembledInstruction
  labels : List sLinkedLabel
  data_end : Nat

/-- Embedding of `link_program`. The initial contents of the two caller-supplied buffers and
the content of the uninitialised local are parameters. -/
def link_program (uninit : Nat → Nat) (program : sAssembledProgram)
    (data_segment text_segment : Segment) : LinkResult :=
  let st := link_data_loop
    { address := DATA_ADDRESS, data_segment := data_segment, labels := [] } program.data
  let labels := link_text_labels TEXT_ADDRESS st.labels program.text
  let r := link_last_loop uninit labels TEXT_ADDRESS text_segment program.text
  { data_segment := st.data_segment, text_segment := r.1, text := r.2, labels := labels,
    data_end := st.address }

/-! ## Field decoders used to state the properties

These follow the field layout `opcode[0:6]`, `rd[7:11]`, `funct3[12:14]`,
`rs1[15:19]`, `rs2[20:24]`, `funct7[25:31]` of the instruction word. -/

def opcodeOf (w : Nat) : Nat := w % 128
def rdOf (w : Nat) : Nat := (w / 128) % 32
def funct3Of (w : Nat) : Nat := (w / 4096) % 8
def rs1Of (w : Nat) : Nat := (w / 32768) % 32
def rs2Of (w : Nat) : Nat := (w / 1048576) % 32
def funct7Of (w : Nat) : Nat := (w / 33554432) % 128
/-- Bits `[20:31]` of the word. -/
def immIOf (w : Nat) : Nat := (w / 1048576) % 4096
/-- Bits `[12:31]` of the word. -/
def immUOf (w : Nat) : Nat := (w / 4096) % 1048576

/-- The J-type immediate of a word: `imm[20]` is bit 31, `imm[10:1]` bits 21..30,
`imm[11]` bit 20, `imm[19:12]` bits 12..19, sign-extended from bit 20. -/
def decodeJ (w : Nat) : Int :=
  let u := ((w / 2147483648) % 2) * 1048576 + ((w / 4096) % 256) * 4096
    + ((w / 1048576) % 2) * 2048 + ((w / 2097152) % 1024) * 2
  if u < 1048576 then (u : Int) else (u : Int) - 2097152

/-- A 32-bit value is `w`-bit sign-extended when its bits `w - 1` through `31`
are all equal. -/
def signExtended (v w : Nat) : Prop :=
  ∀ i, i < 32 → w - 1 ≤ i → v.testBit i = v.testBit 31

instance (v w : Nat) : Decidable (signExtended v w) := by
  unfold signExtended; infer_instance

/-! ## Auxiliary notions for the statements -/

/-- The instruction chain after the last loop, without the text segment: each
node relocated at its own address. -/
def relocate_all (uninit : Nat → Nat) (labels : List sLinkedLabel) :
    Nat → List sAssembledInstruction → List sAssembledInstruction
  | _, [] => []
  | address, text_node :: rest =>
    relocate uninit labels address text_node ::
      relocate_all uninit labels ((address + 4) % 4294967296) rest

/-- Every target label of the chain is found by the search loop. -/
def targetsDefined (labels : List sLinkedLabel) (text : List sAssembledInstruction) :
    Bool :=
  text.all (fun node =>
    match node.target_label with
    | none => true
    | some target => (find_label labels target).isSome)

/-- The label list `link_program` builds for a program. -/
def program_labels (program : sAssembledProgram) : List sLinkedLabel :=
  link_text_labels TEXT_ADDRESS
    (link_data_loop
      { address := DATA_ADDRESS, data_segment := fun _ => 0, labels := [] }
      program.data).labels
    program.text

/-- The stores `(index, value)` of the copy loop `storeBytes`, in program
order. -/
def node_stores (base : Nat) (data : List Nat) : Nat → List (Nat × Nat)
  | 0 => []
  | i + 1 => node_stores base data i ++ [((base + i) % 4294967296, data.getD i 0)]

/-- The stores of the whole data loop started at `address`, in program order. -/
def data_stores : Nat → List sAssembledData → List (Nat × Nat)
  | _, [] => []
  | address, data_node :: rest =>
    node_stores
        ((data_node_address address data_node + 4294967296 - DATA_ADDRESS) % 4294967296)
        data_node.data data_node.data_len
      ++ data_stores (data_node_address address data_node) rest

/-- The running address at the end of the data loop started at `address`. -/
def data_end_address : Nat → List sAssembledData → Nat
  | address, [] => address
  | address, data_node :: rest => data_end_address (data_node_address address data_node) rest

/-- Performs a sequence of stores on a buffer. -/
def applyStores (seg : Segment) : List (Nat × Nat) → Segment
  | [] => seg
  | s :: rest => applyStores (storeByte seg s.1 s.2) rest

/-- The value of the last store to offset `k` in a sequence of stores, if any. -/
def lastStore (k : Nat) : List (Nat × Nat) → Option Nat
  | [] => none
  | s :: rest =>
    match lastStore k rest with
    | some v => some v
    | none => if k = s.1 then some s.2 else none

/-- A buffer holding zero at every offset. -/
def zeroSegment : Segment := fun _ => 0

/-- An uninitialised local that happens to hold zero. -/
def zeroUninit : Nat → Nat := fun _ => 0

/-! ## Example inputs -/

/-- The instruction line `label: tokens`. -/
def instLine (label : Option CString) (tokens : List String) : line :=
  { type := .INST, label := label, token_listhead := tokens.map String.toList }

/-- The line `nop`. -/
def nopLine : line := instLine none ["nop"]

/-- The lines `.text`, then `jal ra, L` directly followed by `L: nop`. -/
def jalNextLines : List line :=
  [{ type := .TEXT, label := none, token_listhead := [] },
   instLine none ["jal", "ra", "L"],
   instLine (some "L".toList) ["nop"]]

/-- The lines `.text`, then `jal ra, L`, 511 `nop` lines, and `L: nop`: the label is
defined 2048 bytes after the `jal`. -/
def jal2048Lines : List line :=
  [{ type := .TEXT, label := none, token_listhead := [] },
   instLine none ["jal", "ra", "L"]] ++ List.replicate 511 nopLine ++
  [instLine (some "L".toList) ["nop"]]

/-- The result of `link_program` on the assembled lines, `none` when
`assemble_program` has no defined result. -/
def assemble_and_link (uninit : Nat → Nat) (lines : List line)
    (data_segment text_segment : Segment) : Option LinkResult :=
  (assemble_program lines).map (fun p => link_program uninit p data_segment text_segment)

/-- The instruction chain `link_program` leaves for the assembled lines. -/
def linked_text (uninit : Nat → Nat) (lines : List line)
    (data_segment text_segment : Segment) : Option (List sAssembledInstruction) :=
  (assemble_and_link uninit lines data_segment text_segment).map (fun r => r.text)

/-- Whether the lines assemble to a program all of whose target labels are
defined. -/
def linesTargetsDefined (lines : List line) : Bool :=
  match assemble_program lines with
  | some p => targetsDefined (program_labels p) p.text
  | none => false

/-- The lines `.text`, then the single line `beq x0, x0, L`; no line defines `L`. -/
def beqUndefinedLines : List line :=
  [{ type := .TEXT, label := none, token_listhead := [] },
   instLine none ["beq", "x0", "x0", "L"]]

/-- The data line `label: tokens` of the given directive kind. -/
def dataLine (type : LineType) (label : Option CString) (tokens : List String) : line :=
  { type := type, label := label, token_listhead := tokens.map String.toList }

/-- The lines `.data`, then `.space 10` followed by `.word 0xAABBCCDD`. -/
def spaceWordLines : List line :=
  [{ type := .DATA, label := none, token_listhead := [] },
   dataLine .SPACE none [".space", "10"],
   dataLine .WORD none [".word", "0xAABBCCDD"]]

/-- The program `spaceWordLines` assembles to: a `space` item with argument 10
and a raw item holding the four bytes of the word. -/
def spaceWordProgram : sAssembledProgram :=
  { data := [{ data := [], data_len := 0, label := none, arg_n := 10,
               linker_code := .LINKER_SPACE },
             { data := [0xDD, 0xCC, 0xBB, 0xAA], data_len := 4, label := none, arg_n := 0,
               linker_code := .LINKER_NONE }],
    text := [] }

/-- The lines `.data`, then `.space 0xEFFFFFFF` followed by `.align 2`. -/
def spaceAlignWrapLines : List line :=
  [{ type := .DATA, label := none, token_listhead := [] },
   dataLine .SPACE none [".space", "0xEFFFFFFF"],
   dataLine .ALIGN none [".align", "2"]]

/-- The items `spaceAlignWrapLines` assembles to. -/
def spaceAlignWrapProgram : sAssembledProgram :=
  { data := [{ data := [], data_len := 0, label := none, arg_n := 0xEFFFFFFF,
               linker_code := .LINKER_SPACE },
             { data := [], data_len := 0, label := none, arg_n := 2,
               linker_code := .LINKER_ALIGN }],
    text := [] }

/-- The lines `.text` and `li x5, 0x123456`. -/
def liWideLines : List line :=
  [{ type := .TEXT, label := none, token_listhead := [] },
   instLine none ["li", "x5", "0x123456"]]

/-- The lines `.text` and `L: nop`. -/
def labelledNopLines : List line :=
  [{ type := .TEXT, label := none, token_listhead := [] },
   instLine (some "L".toList) ["nop"]]

/-- The label nodes the data loop appends, in item order: each labelled item
with the address reached after its `data_len`, align and space adjustments. -/
def data_labels : Nat → List sAssembledData → List sLinkedLabel
  | _, [] => []
  | address, data_node :: rest =>
    add_label [] data_node.label (data_node_address address data_node)
      ++ data_labels (data_node_address address data_node) rest

/-- The label nodes the first text loop appends, in instruction order: each
labelled instruction with the address reached after `address += 4`. -/
def text_labels : Nat → List sAssembledInstruction → List sLinkedLabel
  | _, [] => []
  | address, text_node :: rest =>
    add_label [] text_node.label ((address + 4) % 4294967296)
      ++ text_labels ((address + 4) % 4294967296) rest

/-- The lines `.text`, `jal ra, L`, `L: nop`, `L: nop`: the label `L` is defined
twice. -/
def duplicateLabelLines : List line :=
  [{ type := .TEXT, label := none, token_listhead := [] },
   instLine none ["jal", "ra", "L"],
   instLine (some "L".toList) ["nop"],
   instLine (some "L".toList) ["nop"]]

/-- The lines `.data`, `msg: .word 1`, `.text`, `la x6, msg`. -/
def laDataLines : List line :=
  [{ type := .DATA, label := none, token_listhead := [] },
   dataLine .WORD (some "msg".toList) [".word", "1"],
   { type := .TEXT, label := none, token_listhead := [] },
   instLine none ["la", "x6", "msg"]]

/-- The fields `(opcode, rd, funct3, rs1)` of an instruction word. -/
def fixedFields (w : Nat) : Nat × Nat × Nat × Nat :=
  (opcodeOf w, rdOf w, funct3Of w, rs1Of w)

/-- The operation names with a branch of their own in `_instruction_to_binary`
or `_psuedo_to_binary`. -/
def supportedMnemonics : List CString :=
  ["add".toList, "sub".toList, "xor".toList, "or".toList, "and".toList, "sll".toList,
   "srl".toList, "sra".toList, "slt".toList, "addi".toList, "xori".toList, "ori".toList,
   "andi".toList, "slti".toList, "slli".toList, "srli".toList, "srai".toList,
   "lw".toList, "sw".toList, "beq".toList, "bne".toList, "jalr".toList, "jal".toList,
   "lui".toList, "auipc".toList, "j".toList, "la".toList, "li".toList, "mv".toList,
   "neg".toList, "nop".toList, "ret".toList]

/-- The lines `.text`, `nop`, `sltu x1, x2, x3`, `not x1, x2`. -/
def unknownMnemonicLines : List line :=
  [{ type := .TEXT, label := none, token_listhead := [] },
   instLine none ["nop"],
   instLine none ["sltu", "x1", "x2", "x3"],
   instLine none ["not", "x1", "x2"]]

/-- The token enclosed in parentheses, as in the remainder `(reg)` of a memory
operand. -/
def parenthesised (name : CString) : CString := '(' :: name ++ [')']

/-- Little-endian decoding of a payload into 32-bit words, four bytes at a
time. -/
def decodeWordsLE : List Nat → List Nat
  | b0 :: b1 :: b2 :: b3 :: rest =>
    (b0 + 256 * b1 + 65536 * b2 + 16777216 * b3) :: decodeWordsLE rest
  | _ => []

/-- A line that is neither the `DATA` nor the `TEXT` segment directive. -/
def notSegmentDirective (l : line) : Bool :=
  l.type != .DATA && l.type != .TEXT

/-- The state `assemble_program` starts its loop in. -/
def initialLoop : AssemblerLoop :=
  { state := .S_UNCLASSIFIED, data := [], text := [] }

/-- The chain the text branch of `assemble_program` obtains for the tokens of
one instruction line: `_psuedo_to_binary` when `_check_psuedo` accepts the
operation name, the single node of `_instruction_to_binary` otherwise. -/
def line_expansion (tokens : List CString) : Option (List sAssembledInstruction) :=
  match tokens[0]? with
  | none => none
  | some opName =>
    if _check_psuedo opName then _psuedo_to_binary tokens
    else (_instruction_to_binary tokens).map (fun i => [i])

/-- The chain `chain` is what one pass of the loop appends for the line: the
expansion of its tokens with the label of the line set on the head. -/
def isExpansionOf (l : line) (chain : List sAssembledInstruction) : Prop :=
  ∃ e, line_expansion l.token_listhead = some e ∧ chain = set_head_label l.label e

/-- A chain returned by an encoder: one or two nodes, none with a definition
label. -/
def chainOk (c : List sAssembledInstruction) : Prop :=
  (c.length = 1 ∨ c.length = 2) ∧ ∀ i ∈ c, i.label = none

/-- The instruction lines `L: la x5, msg` and `add x1, x2, x3`. -/
def laAddLines : List line :=
  [instLine (some "L".toList) ["la", "x5", "msg"], instLine none ["add", "x1", "x2", "x3"]]

/-- The B-type immediate of a word: `imm[12]` is bit 31, `imm[10:5]` bits 25..30,
`imm[4:1]` bits 8..11, `imm[11]` bit 7, sign-extended from bit 12. -/
def decodeB (w : Nat) : Int :=
  let u := ((w / 2147483648) % 2) * 4096 + ((w / 128) % 2) * 2048
    + ((w / 33554432) % 64) * 32 + ((w / 256) % 16) * 2
  if u < 4096 then (u : Int) else (u : Int) - 8192

/-- The lines `.text`, `li x5, 0x800`, `li x5, 0xFFF`. -/
def liBit11Lines : List line :=
  [{ type := .TEXT, label := none, token_listhead := [] },
   instLine none ["li", "x5", "0x800"],
   instLine none ["li", "x5", "0xFFF"]]

/-- The lines `.data`, `.word 1 2`, `.word 3`. -/
def twoWordItemsLines : List line :=
  [{ type := .DATA, label := none, token_listhead := [] },
   dataLine .WORD none [".word", "1", "2"],
   dataLine .WORD none [".word", "3"]]

/-- The items `twoWordItemsLines` assembles to. -/
def twoWordItemsProgram : sAssembledProgram :=
  { data := [{ data := [1, 0, 0, 0, 2, 0, 0, 0], data_len := 8, label := none, arg_n := 0,
               linker_code := .LINKER_NONE },
             { data := [3, 0, 0, 0], data_len := 4, label := none, arg_n := 0,
               linker_code := .LINKER_NONE }],
    text := [] }

/-- The node of `nop` as the assembler produces it: the word of `addi x0, x0, 0`. -/
def nopNode : sAssembledInstruction :=
  { binary := 0x13, target_label := none, label := none, linker_code := .LINKER_NONE }

/-- The node of `add x0, x0, x0` as the assembler produces it. -/
def addZeroNode : sAssembledInstruction :=
  { binary := 0x33, target_label := none, label := none, linker_code := .LINKER_NONE }

/-- A text sequence of `2 ^ 30 + 1` instructions: `2 ^ 30` times `nop`, then
`add x0, x0, x0`. -/
def wrappingProgram : sAssembledProgram :=
  { data := [], text := List.replicate 1073741824 nopNode ++ [addZeroNode] }

/-- The decimal rendering of a natural number. -/
def decimalOf (n : Nat) : CString := Nat.toDigits 10 n

/-- The rendering `0x` followed by the hexadecimal digits of a natural number. -/
def hexOf (n : Nat) : CString := '0' :: 'x' :: Nat.toDigits 16 n

/-- The rendering `0b` followed by the binary digits of a natural number. -/
def binaryOf (n : Nat) : CString := '0' :: 'b' :: Nat.toDigits 2 n

set_option maxRecDepth 100000

/-! ## Arithmetic of the bind methods -/

theorem lor_shiftLeft_eq_add (a b k : Nat) (h : a < 2 ^ k) :
    a ||| (b <<< k) = a + b * 2 ^ k := by
  rw [Nat.lor_comm, Nat.shiftLeft_eq, Nat.mul_comm b, ← Nat.mul_add_lt_is_or h]
  omega

theorem and_7F (x : Nat) : x &&& 0x7F = x % 128 := Nat.and_pow_two_sub_one_eq_mod x 7
theorem and_1F (x : Nat) : x &&& 0x1F = x % 32 := Nat.and_pow_two_sub_one_eq_mod x 5
theorem and_7 (x : Nat) : x &&& 0x7 = x % 8 := Nat.and_pow_two_sub_one_eq_mod x 3
theorem and_FFF (x : Nat) : x &&& 0xFFF = x % 4096 := Nat.and_pow_two_sub_one_eq_mod x 12

theorem toU32_natCast (n : Nat) : toU32 (n : Int) = n % 4294967296 := by
  unfold toU32; omega

theorem bind_opcode_zero (opcode : Nat) : _bind_opcode 0 opcode = opcode % 128 := by
  simp [_bind_opcode, and_7F]

theorem bind_rd_eq (instr rd : Nat) (h : instr < 128) :
    _bind_rd instr rd = instr + (rd % 32) * 128 := by
  simp only [_bind_rd, and_1F]
  exact lor_shiftLeft_eq_add instr _ 7 (by simpa using h)

theorem bind_funct3_eq (instr f : Nat) (h : instr < 4096) :
    _bind_funct3 instr f = instr + (f % 8) * 4096 := by
  simp only [_bind_funct3, and_7]
  exact lor_shiftLeft_eq_add instr _ 12 (by simpa using h)

theorem bind_rs1_eq (instr r : Nat) (h : instr < 32768) :
    _bind_rs1 instr r = instr + (r % 32) * 32768 := by
  simp only [_bind_rs1, and_1F]
  exact lor_shiftLeft_eq_add instr _ 15 (by simpa using h)

theorem bind_rs2_eq (instr r : Nat) (h : instr < 1048576) :
    _bind_rs2 instr r = instr + (r % 32) * 1048576 := by
  simp only [_bind_rs2, and_1F]
  exact lor_shiftLeft_eq_add instr _ 20 (by simpa using h)

theorem bind_funct7_eq (instr f : Nat) (h : instr < 33554432) :
    _bind_funct7 instr f = instr + (f % 128) * 33554432 := by
  simp only [_bind_funct7, and_7F]
  exact lor_shiftLeft_eq_add instr _ 25 (by simpa using h)

/-- The word `_assemble_r_type` builds from a zeroed word, as a sum of fields. -/
theorem assemble_r_type_eq (m trd trs1 trs2 : CString) (opcode funct3 funct7 : Nat) :
    _assemble_r_type 0 [m, trd, trs1, trs2] opcode funct3 funct7 =
      some (opcode % 128 + (toU32 (_get_reg trd) % 32) * 128 + (funct3 % 8) * 4096
        + (toU32 (_get_reg trs1) % 32) * 32768 + (toU32 (_get_reg trs2) % 32) * 1048576
        + (funct7 % 128) * 33554432) := by
  simp only [_assemble_r_type, List.getElem?_cons_succ, List.getElem?_cons_zero,
    Option.bind_eq_bind, Option.some_bind, Option.pure_def, bind_opcode_zero]
  rw [bind_rd_eq _ _ (by omega), bind_funct3_eq _ _ (by omega), bind_rs1_eq _ _ (by omega),
    bind_rs2_eq _ _ (by omega), bind_funct7_eq _ _ (by omega)]

/-- Decoding the fields of an R-type word built by `_instruction_to_binary`,
given that the operation name selects `_assemble_r_type` with the stated
function codes. -/
theorem r_type_of_reduce (m trd trs1 trs2 : CString) (funct3 funct7 rd rs1 rs2 : Nat)
    (hred : _instruction_to_binary [m, trd, trs1, trs2] =
      (_assemble_r_type 0 [m, trd, trs1, trs2] 0x33 funct3 funct7).map
        (fun b => { callocInstruction with binary := b }))
    (hf3 : funct3 < 8) (hf7 : funct7 < 128)
    (hrd : rd < 32) (hrs1 : rs1 < 32) (hrs2 : rs2 < 32)
    (htrd : _get_reg trd = (rd : Int)) (htrs1 : _get_reg trs1 = (rs1 : Int))
    (htrs2 : _get_reg trs2 = (rs2 : Int)) :
    ∃ ai, _instruction_to_binary [m, trd, trs1, trs2] = some ai ∧
      opcodeOf ai.binary = 0x33 ∧ rdOf ai.binary = rd ∧ rs1Of ai.binary = rs1 ∧
      rs2Of ai.binary = rs2 ∧ funct3Of ai.binary = funct3 ∧ funct7Of ai.binary = funct7 := by
  rw [hred, assemble_r_type_eq, htrd, htrs1, htrs2]
  refine ⟨_, rfl, ?_⟩
  simp only [toU32_natCast, opcodeOf, rdOf, rs1Of, rs2Of, funct3Of, funct7Of]
  refine ⟨?_, ?_, ?_, ?_, ?_, ?_⟩ <;> omega

/-- C1: for every R-type mnemonic of the table (add, sub, xor, or, and, sll, srl,
sra, slt) and register tokens naming `rd`, `rs1`, `rs2` in 0..31,
`_instruction_to_binary` produces a word with opcode `0x33`, the three register
indices in their fields, and the `(funct3, funct7)` pair of the table. -/
theorem instruction_to_binary_r_type (m : CString) (funct3 funct7 : Nat)
    (hm : (m, funct3, funct7) ∈
      [("add".toList, 0, 0x00), ("sub".toList, 0, 0x20), ("xor".toList, 4, 0x00),
       ("or".toList, 6, 0x00), ("and".toList, 7, 0x00), ("sll".toList, 1, 0x00),
       ("srl".toList, 5, 0x00), ("sra".toList, 5, 0x20), ("slt".toList, 2, 0x00)])
    (trd trs1 trs2 : CString) (rd rs1 rs2 : Nat)
    (hrd : rd < 32) (hrs1 : rs1 < 32) (hrs2 : rs2 < 32)
    (htrd : _get_reg trd = (rd : Int)) (htrs1 : _get_reg trs1 = (rs1 : Int))
    (htrs2 : _get_reg trs2 = (rs2 : Int)) :
    ∃ ai, _instruction_to_binary [m, trd, trs1, trs2] = some ai ∧
      opcodeOf ai.binary = 0x33 ∧ rdOf ai.binary = rd ∧ rs1Of ai.binary = rs1 ∧
      rs2Of ai.binary = rs2 ∧ funct3Of ai.binary = funct3 ∧ funct7Of ai.binary = funct7 := by
  simp only [List.mem_cons, Prod.mk.injEq, List.mem_singleton, List.not_mem_nil,
    or_false] at hm
  rcases hm with h | h | h | h | h | h | h | h | h <;>
  obtain ⟨rfl, rfl, rfl⟩ := h <;>
  exact r_type_of_reduce _ trd trs1 trs2 _ _ rd rs1 rs2 rfl (by norm_num) (by norm_num)
    hrd hrs1 hrs2 htrd htrs1 htrs2

theorem instruction_to_binary_r_type_witness :
    ∃ ai, _instruction_to_binary ["sra".toList, "x11".toList, "s1".toList, "t6".toList]
        = some ai ∧
      opcodeOf ai.binary = 0x33 ∧ rdOf ai.binary = 11 ∧ rs1Of ai.binary = 9 ∧
      rs2Of ai.binary = 31 ∧ funct3Of ai.binary = 5 ∧ funct7Of ai.binary = 0x20 :=
  instruction_to_binary_r_type "sra".toList 5 0x20 (by decide)
    "x11".toList "s1".toList "t6".toList 11 9 31 (by decide) (by decide) (by decide)
    (by decide) (by decide) (by decide)
theorem sign_reduce_eq (v w : Nat) (h1 : 1 ≤ w) (h2 : w ≤ 33) :
    _sign_reduce v w = v % 2 ^ (w - 1) + ((v >>> 30) % 2 ^ (33 - w)) * 2 ^ (w - 1) := by
  unfold _sign_reduce
  simp only [Nat.one_shiftLeft, Nat.and_pow_two_sub_one_eq_mod]
  have h3 : (4294967296 : Nat) = 2 ^ (33 - w) * 2 ^ (w - 1) := by
    rw [← Nat.pow_add]
    have : 33 - w + (w - 1) = 32 := by omega
    rw [this]
  have h4 : ((v >>> 30) <<< (w - 1)) % 4294967296
      = ((v >>> 30) % 2 ^ (33 - w)) <<< (w - 1) := by
    rw [Nat.shiftLeft_eq, Nat.shiftLeft_eq, h3, Nat.mul_mod_mul_right]
  rw [h4]
  exact lor_shiftLeft_eq_add _ _ _ (Nat.mod_lt _ (by positivity))

theorem sign_reduce_12 (v : Nat) :
    _sign_reduce v 12 = v % 2048 + ((v / 1073741824) % 2097152) * 2048 := by
  rw [sign_reduce_eq v 12 (by norm_num) (by norm_num)]
  norm_num [Nat.shiftRight_eq_div_pow]

theorem sign_reduce_21 (v : Nat) :
    _sign_reduce v 21 = v % 1048576 + ((v / 1073741824) % 4096) * 1048576 := by
  rw [sign_reduce_eq v 21 (by norm_num) (by norm_num)]
  norm_num [Nat.shiftRight_eq_div_pow]

theorem toU32_lt (x : Int) : toU32 x < 4294967296 := by
  unfold toU32; omega

theorem toU32_cast (x : Int) : ((toU32 x : Nat) : Int) = x % 4294967296 := by
  unfold toU32; omega

/-- Low twelve bits of the sign-reduced immediate, for an immediate in the
signed 12-bit range. -/
theorem sign_reduce_12_small (imm : Int) (hlo : -2048 ≤ imm) (hhi : imm ≤ 2047) :
    _sign_reduce (toU32 imm) 12 % 4096 = (imm % 4096).toNat := by
  rw [sign_reduce_12]
  have h := toU32_cast imm
  have hl := toU32_lt imm
  generalize toU32 imm = v at h hl
  omega

theorem bind_imm_i_type_eq (instr imm : Nat) (h : instr < 1048576) :
    _bind_imm_i_type instr imm = instr + (_sign_reduce imm 12 % 4096) * 1048576 := by
  simp only [_bind_imm_i_type, and_FFF]
  exact lor_shiftLeft_eq_add instr _ 20 (by simpa using h)

/-- The word `_assemble_i_type` builds from a zeroed word, as a sum of fields. -/
theorem assemble_i_type_eq (m trd trs1 timm : CString) (opcode funct3 : Nat) :
    _assemble_i_type 0 [m, trd, trs1, timm] opcode funct3 =
      some (opcode % 128 + (toU32 (_get_reg trd) % 32) * 128 + (funct3 % 8) * 4096
        + (toU32 (_get_reg trs1) % 32) * 32768
        + (_sign_reduce (toU32 (_get_imm timm)) 12 % 4096) * 1048576) := by
  simp only [_assemble_i_type, List.getElem?_cons_succ, List.getElem?_cons_zero,
    Option.bind_eq_bind, Option.some_bind, Option.pure_def, bind_opcode_zero]
  rw [bind_rd_eq _ _ (by omega), bind_funct3_eq _ _ (by omega), bind_rs1_eq _ _ (by omega),
    bind_imm_i_type_eq _ _ (by omega)]

/-- The word the `lw`/`jalr` branches build from a zeroed word, as a sum of
fields. -/
theorem assemble_load_eq (m trd tmem : CString) (opcode funct3 : Nat) :
    assemble_load 0 [m, trd, tmem] opcode funct3 =
      some (opcode % 128 + (toU32 (_get_reg trd) % 32) * 128 + (funct3 % 8) * 4096
        + (toU32 (_get_reg (_get_imm_and_ptr tmem).2) % 32) * 32768
        + (_sign_reduce (toU32 (_get_imm_and_ptr tmem).1) 12 % 4096) * 1048576) := by
  simp only [assemble_load, List.getElem?_cons_succ, List.getElem?_cons_zero,
    Option.bind_eq_bind, Option.some_bind, Option.pure_def, bind_opcode_zero]
  rw [bind_rd_eq _ _ (by omega), bind_funct3_eq _ _ (by omega), bind_rs1_eq _ _ (by omega),
    bind_imm_i_type_eq _ _ (by omega)]

/-- Field decoding of an I-type word given as a sum of fields. -/
theorem i_type_fields (opcode funct3 rd rs1 immf : Nat) (hop : opcode < 128)
    (hf3 : funct3 < 8) (hrd : rd < 32) (hrs1 : rs1 < 32) (himm : immf < 4096) (w : Nat)
    (hw : w = opcode % 128 + (toU32 (rd : Int) % 32) * 128 + (funct3 % 8) * 4096
        + (toU32 (rs1 : Int) % 32) * 32768 + immf * 1048576) :
    opcodeOf w = opcode ∧ funct3Of w = funct3 ∧ rdOf w = rd ∧ rs1Of w = rs1 ∧
      immIOf w = immf := by
  subst hw
  simp only [toU32_natCast, opcodeOf, rdOf, rs1Of, funct3Of, immIOf]
  refine ⟨?_, ?_, ?_, ?_, ?_⟩ <;> omega

/-- C2: for the I-type instructions written `op rd, rs1, imm` (addi, xori, ori,
andi, slti) and `op rd, imm(rs1)` (lw, jalr), register tokens naming `rd`, `rs1`
in 0..31 and an immediate token of value `imm` with `-2048 ≤ imm ≤ 2047`, the
word decodes to the opcode and funct3 of the mnemonic, `rd` and `rs1` in their
fields, and bits `[20:31]` equal to `imm` modulo `2 ^ 12`. -/
theorem instruction_to_binary_i_type (args : List CString) (m trd : CString)
    (opcode funct3 rd rs1 : Nat) (imm : Int)
    (hrd : rd < 32) (hrs1 : rs1 < 32) (hlo : -2048 ≤ imm) (hhi : imm ≤ 2047)
    (htrd : _get_reg trd = (rd : Int))
    (hform :
      (∃ trs1 timm, args = [m, trd, trs1, timm] ∧
        (m, opcode, funct3) ∈
          [("addi".toList, 0x13, 0), ("xori".toList, 0x13, 4), ("ori".toList, 0x13, 6),
           ("andi".toList, 0x13, 7), ("slti".toList, 0x13, 2)] ∧
        _get_reg trs1 = (rs1 : Int) ∧ _get_imm timm = imm) ∨
      (∃ tmem, args = [m, trd, tmem] ∧
        (m, opcode, funct3) ∈ [("lw".toList, 0x03, 2), ("jalr".toList, 0x67, 0)] ∧
        _get_reg (_get_imm_and_ptr tmem).2 = (rs1 : Int) ∧
        (_get_imm_and_ptr tmem).1 = imm)) :
    ∃ ai, _instruction_to_binary args = some ai ∧
      opcodeOf ai.binary = opcode ∧ funct3Of ai.binary = funct3 ∧
      rdOf ai.binary = rd ∧ rs1Of ai.binary = rs1 ∧
      immIOf ai.binary = (imm % 4096).toNat := by
  have himm := sign_reduce_12_small imm hlo hhi
  have hb : (imm % 4096).toNat < 4096 := by omega
  rcases hform with ⟨trs1, timm, rfl, hm, htrs1, htimm⟩ | ⟨tmem, rfl, hm, htrs1, htimm⟩
  · simp only [List.mem_cons, Prod.mk.injEq, List.mem_singleton, List.not_mem_nil,
      or_false] at hm
    have key : ∀ op f3, op < 128 → f3 < 8 →
        _instruction_to_binary [m, trd, trs1, timm] =
          (_assemble_i_type 0 [m, trd, trs1, timm] op f3).map
            (fun b => { callocInstruction with binary := b }) →
        ∃ ai, _instruction_to_binary [m, trd, trs1, timm] = some ai ∧
          opcodeOf ai.binary = op ∧ funct3Of ai.binary = f3 ∧
          rdOf ai.binary = rd ∧ rs1Of ai.binary = rs1 ∧
          immIOf ai.binary = (imm % 4096).toNat := by
      intro op f3 hop hf3 hred
      rw [hred, assemble_i_type_eq, htrd, htrs1, htimm, himm]
      exact ⟨_, rfl, i_type_fields op f3 rd rs1 _ hop hf3 hrd hrs1 hb _ rfl⟩
    rcases hm with h | h | h | h | h <;>
    obtain ⟨rfl, rfl, rfl⟩ := h <;>
    exact key _ _ (by norm_num) (by norm_num) rfl
  · simp only [List.mem_cons, Prod.mk.injEq, List.mem_singleton, List.not_mem_nil,
      or_false] at hm
    have key : ∀ op f3, op < 128 → f3 < 8 →
        _instruction_to_binary [m, trd, tmem] =
          (assemble_load 0 [m, trd, tmem] op f3).map
            (fun b => { callocInstruction with binary := b }) →
        ∃ ai, _instruction_to_binary [m, trd, tmem] = some ai ∧
          opcodeOf ai.binary = op ∧ funct3Of ai.binary = f3 ∧
          rdOf ai.binary = rd ∧ rs1Of ai.binary = rs1 ∧
          immIOf ai.binary = (imm % 4096).toNat := by
      intro op f3 hop hf3 hred
      rw [hred, assemble_load_eq, htrd, htrs1, htimm, himm]
      exact ⟨_, rfl, i_type_fields op f3 rd rs1 _ hop hf3 hrd hrs1 hb _ rfl⟩
    rcases hm with h | h <;>
    obtain ⟨rfl, rfl, rfl⟩ := h <;>
    exact key _ _ (by norm_num) (by norm_num) rfl

theorem instruction_to_binary_i_type_witness :
    (∃ ai, _instruction_to_binary
          ["addi".toList, "x5".toList, "a0".toList, "-2048".toList] = some ai ∧
        opcodeOf ai.binary = 0x13 ∧ funct3Of ai.binary = 0 ∧
        rdOf ai.binary = 5 ∧ rs1Of ai.binary = 10 ∧
        immIOf ai.binary = ((-2048 : Int) % 4096).toNat) ∧
    (∃ ai, _instruction_to_binary ["lw".toList, "x5".toList, "-4(sp)".toList] = some ai ∧
        opcodeOf ai.binary = 0x03 ∧ funct3Of ai.binary = 2 ∧
        rdOf ai.binary = 5 ∧ rs1Of ai.binary = 2 ∧
        immIOf ai.binary = ((-4 : Int) % 4096).toNat) :=
  ⟨instruction_to_binary_i_type _ "addi".toList "x5".toList 0x13 0 5 10 (-2048)
      (by decide) (by decide) (by decide) (by decide) (by decide)
      (Or.inl ⟨"a0".toList, "-2048".toList, rfl, by decide, by decide, by decide⟩),
   instruction_to_binary_i_type _ "lw".toList "x5".toList 0x03 2 5 2 (-4)
      (by decide) (by decide) (by decide) (by decide) (by decide)
      (Or.inr ⟨"-4(sp)".toList, rfl, by decide, by decide, by decide⟩)⟩

/-- C3 (evaluation at `sw x5, 8(x6)`): the word has opcode `0x23`, funct3 `2` and
the offset `8` in bits `[7:11]`, but the stored register `x5` is in the rs1 field
and the base register `x6` of the memory operand in the rs2 field. -/
theorem sw_x5_8_x6_fields :
    ∃ ai, _instruction_to_binary ["sw".toList, "x5".toList, "8(x6)".toList] = some ai ∧
      opcodeOf ai.binary = 0x23 ∧ funct3Of ai.binary = 2 ∧
      rs1Of ai.binary = 5 ∧ rs2Of ai.binary = 6 ∧
      rdOf ai.binary = 8 ∧ funct7Of ai.binary = 0 :=
  ⟨_, rfl, by decide⟩

/-- C4 (counterexample): the all-ones word is 12-bit sign-extended, yet
`_sign_reduce` returns `0x1FFF` for it. -/
theorem sign_reduce_all_ones_12 :
    signExtended 0xFFFFFFFF 12 ∧ _sign_reduce 0xFFFFFFFF 12 = 0x1FFF ∧
      _sign_reduce 0xFFFFFFFF 12 ≠ 0xFFFFFFFF := by
  decide

/-- A sign-extended value with bit 31 clear is below `2 ^ (w - 1)`. -/
theorem signExtended_nonneg_lt (v w : Nat) (hv : v < 2 ^ 32) (hs : signExtended v w)
    (h31 : v.testBit 31 = false) : v < 2 ^ (w - 1) := by
  apply Nat.lt_pow_two_of_testBit
  intro i hi
  by_cases h : i < 32
  · rw [hs i h hi, h31]
  · exact Nat.testBit_lt_two_pow
      (lt_of_lt_of_le hv (Nat.pow_le_pow_right (by norm_num) (by omega)))

/-- A sign-extended value with bit 31 set is at least `2 ^ 32 - 2 ^ (w - 1)`. -/
theorem signExtended_neg_ge (v w : Nat) (hv : v < 2 ^ 32) (hs : signExtended v w)
    (h31 : v.testBit 31 = true) : 2 ^ 32 - 2 ^ (w - 1) ≤ v := by
  have hu : 2 ^ 32 - (v + 1) < 2 ^ (w - 1) := by
    apply Nat.lt_pow_two_of_testBit
    intro i hi
    rw [Nat.testBit_two_pow_sub_succ hv]
    by_cases h : i < 32
    · simp [hs i h hi, h31]
    · simp [h]
  omega

/-- C4 (amended): for `2 ≤ w ≤ 31` and a 32-bit value `v` that is `w`-bit
sign-extended, `_sign_reduce v w` agrees with `v` on the low `w` bits, and it
returns `v` itself when `v` is non-negative (bit 31 clear, hence bits `w - 1`
through `31` all zero). -/
theorem sign_reduce_sign_extended (v w : Nat) (hw2 : 2 ≤ w) (hw31 : w ≤ 31)
    (hv : v < 2 ^ 32) (hs : signExtended v w) :
    _sign_reduce v w % 2 ^ w = v % 2 ^ w ∧
      (v.testBit 31 = false → _sign_reduce v w = v) := by
  rw [sign_reduce_eq v w (by omega) (by omega)]
  obtain ⟨k, rfl⟩ : ∃ k, w = k + 2 := ⟨w - 2, by omega⟩
  have hk1 : k + 2 - 1 = k + 1 := by omega
  have hP : 0 < 2 ^ (k + 1) := by positivity
  have hP30 : 2 ^ (k + 1) ≤ 2 ^ 30 := Nat.pow_le_pow_right (by norm_num) (by omega)
  have hw : 2 ^ (k + 2) = 2 * 2 ^ (k + 1) := by rw [Nat.pow_succ]; omega
  rw [hk1]
  cases h31 : v.testBit 31
  · have hlt : v < 2 ^ (k + 1) := signExtended_nonneg_lt v (k + 2) hv hs h31
    have h0 : v >>> 30 = 0 := by
      rw [Nat.shiftRight_eq_div_pow]; apply Nat.div_eq_of_lt; omega
    have hres : v % 2 ^ (k + 1) + (v >>> 30) % 2 ^ (33 - (k + 2)) * 2 ^ (k + 1) = v := by
      rw [h0, Nat.mod_eq_of_lt hlt]; simp
    rw [hres]
    exact ⟨rfl, fun _ => rfl⟩
  · have hge : 2 ^ 32 - 2 ^ (k + 1) ≤ v := signExtended_neg_ge v (k + 2) hv hs h31
    have h3 : v >>> 30 = 3 := by
      rw [Nat.shiftRight_eq_div_pow]; omega
    have hQ : 4 ≤ 2 ^ (33 - (k + 2)) := by
      calc 4 = 2 ^ 2 := by norm_num
        _ ≤ 2 ^ (33 - (k + 2)) := Nat.pow_le_pow_right (by norm_num) (by omega)
    have h3' : 3 % 2 ^ (33 - (k + 2)) = 3 := Nat.mod_eq_of_lt (by omega)
    rw [h3, h3']
    refine ⟨?_, fun h => by simp at h⟩
    -- write `v = q * 2 ^ (k + 2) + 2 ^ (k + 1) + r` with `r < 2 ^ (k + 1)`
    have hsplit : 2 ^ 32 = 2 ^ (30 - k) * 2 ^ (k + 2) := by
      rw [← Nat.pow_add]; congr 1; omega
    have hQ1 : 0 < 2 ^ (30 - k) := by positivity
    obtain ⟨q, hq⟩ : ∃ q, 2 ^ (30 - k) = q + 1 := ⟨2 ^ (30 - k) - 1, by omega⟩
    have hsplit' : 2 ^ 32 = q * 2 ^ (k + 2) + 2 * 2 ^ (k + 1) := by
      rw [hsplit, hq, Nat.add_mul, hw]; omega
    obtain ⟨r, hr⟩ : ∃ r, v = q * 2 ^ (k + 2) + 2 ^ (k + 1) + r :=
      ⟨v - (q * 2 ^ (k + 2) + 2 ^ (k + 1)), by omega⟩
    have hrlt : r < 2 ^ (k + 1) := by omega
    have hv1 : v % 2 ^ (k + 1) = r := by
      rw [hr, hw, show q * (2 * 2 ^ (k + 1)) + 2 ^ (k + 1) + r
        = r + (q * 2 + 1) * 2 ^ (k + 1) by ring, Nat.add_mul_mod_self_right,
        Nat.mod_eq_of_lt hrlt]
    have hv2 : v % 2 ^ (k + 2) = 2 ^ (k + 1) + r := by
      rw [hr, show q * 2 ^ (k + 2) + 2 ^ (k + 1) + r
        = (2 ^ (k + 1) + r) + q * 2 ^ (k + 2) by ring, Nat.add_mul_mod_self_right,
        Nat.mod_eq_of_lt (by omega)]
    rw [hv1, hv2, show r + 3 * 2 ^ (k + 1) = (2 ^ (k + 1) + r) + 1 * 2 ^ (k + 2) by
      rw [hw]; ring, Nat.add_mul_mod_self_right, Nat.mod_eq_of_lt (by omega)]

theorem sign_reduce_sign_extended_witness :
    _sign_reduce 0xFFFFF800 12 % 2 ^ 12 = 0xFFFFF800 % 2 ^ 12 ∧
      (Nat.testBit 0xFFFFF800 31 = false → _sign_reduce 0xFFFFF800 12 = 0xFFFFF800) :=
  sign_reduce_sign_extended 0xFFFFF800 12 (by decide) (by decide) (by decide) (by decide)

/-! ## Structure of `link_program` -/

theorem link_last_loop_text (uninit : Nat → Nat) (labels : List sLinkedLabel)
    (text : List sAssembledInstruction) :
    ∀ (address : Nat) (seg : Segment),
      (link_last_loop uninit labels address seg text).2
        = relocate_all uninit labels address text := by
  induction text with
  | nil => intro address seg; rfl
  | cons node rest ih =>
    intro address seg
    simp only [link_last_loop, relocate_all]
    rw [ih]

theorem relocate_congr (u1 u2 : Nat → Nat) (labels : List sLinkedLabel) (address : Nat)
    (node : sAssembledInstruction)
    (h : ∀ target, node.target_label = some target → (find_label labels target).isSome) :
    relocate u1 labels address node = relocate u2 labels address node := by
  unfold relocate
  cases ht : node.target_label with
  | none => rfl
  | some target =>
    have hsome := h target ht
    cases hf : find_label labels target with
    | none => rw [hf] at hsome; simp at hsome
    | some a => simp only [hf]

theorem relocate_all_congr (u1 u2 : Nat → Nat) (labels : List sLinkedLabel)
    (text : List sAssembledInstruction) (h : targetsDefined labels text = true) :
    ∀ address, relocate_all u1 labels address text = relocate_all u2 labels address text := by
  induction text with
  | nil => intro address; rfl
  | cons node rest ih =>
    intro address
    simp only [targetsDefined, List.all_cons, Bool.and_eq_true] at h
    simp only [relocate_all]
    rw [ih (by simpa [targetsDefined] using h.2)]
    congr 1
    apply relocate_congr
    intro target ht
    have := h.1
    rw [ht] at this
    exact this

theorem link_data_loop_labels (data : List sAssembledData) :
    ∀ (st : DataLoopState) (seg : Segment),
      (link_data_loop { st with data_segment := seg } data).labels
        = (link_data_loop st data).labels ∧
      (link_data_loop { st with data_segment := seg } data).address
        = (link_data_loop st data).address := by
  induction data with
  | nil => intro st seg; exact ⟨rfl, rfl⟩
  | cons d rest ih =>
    intro st seg
    simp only [link_data_loop, List.foldl_cons] at ih ⊢
    have h := ih (link_data_node st d)
      (link_data_node { st with data_segment := seg } d).data_segment
    exact h

/-- The label list of `link_program` does not depend on the buffers. -/
theorem link_program_labels (uninit : Nat → Nat) (program : sAssembledProgram)
    (ds ts : Segment) :
    (link_program uninit program ds ts).labels = program_labels program := by
  simp only [link_program, program_labels]
  congr 1
  exact (link_data_loop_labels program.data
    { address := DATA_ADDRESS, data_segment := fun _ => 0, labels := [] } ds).1

/-- The instruction chain left by `link_program`. -/
theorem link_program_text (uninit : Nat → Nat) (program : sAssembledProgram)
    (ds ts : Segment) :
    (link_program uninit program ds ts).text
      = relocate_all uninit (program_labels program) TEXT_ADDRESS program.text := by
  have h := link_program_labels uninit program ds ts
  simp only [link_program] at h ⊢
  rw [link_last_loop_text, h]

/-- When every target label is defined, the instruction chain left by
`link_program` depends neither on the buffers nor on uninitialised memory. -/
theorem link_program_text_defined (uninit : Nat → Nat) (program : sAssembledProgram)
    (ds ts : Segment)
    (h : targetsDefined (program_labels program) program.text = true) :
    (link_program uninit program ds ts).text
      = (link_program zeroUninit program zeroSegment zeroSegment).text := by
  rw [link_program_text, link_program_text]
  exact relocate_all_congr _ _ _ _ h _

theorem linked_text_defined (uninit : Nat → Nat) (lines : List line) (ds ts : Segment)
    (h : linesTargetsDefined lines = true) :
    linked_text uninit lines ds ts = linked_text zeroUninit lines zeroSegment zeroSegment := by
  unfold linesTargetsDefined at h
  unfold linked_text assemble_and_link
  cases hp : assemble_program lines with
  | none => rfl
  | some p =>
    rw [hp] at h
    simp only [Option.map_some']
    rw [link_program_text_defined uninit p ds ts h]

/-- C5 (evaluation): with `jal ra, L` directly followed by `L: nop` the J-type
immediate of the linked `jal` decodes to `8`, not `4`; with the label defined
2048 bytes after the `jal` (511 instructions in between) it decodes to `2052`,
not `2048`. -/
theorem jal_decodes_label_plus_4 (uninit : Nat → Nat) (ds ts : Segment) :
    (linked_text uninit jalNextLines ds ts).map
        (fun t => t.map (fun i => decodeJ i.binary)) = some [8, 0] ∧
    (linked_text uninit jal2048Lines ds ts).map
        (fun t => t.head?.map (fun i => decodeJ i.binary)) = some (some 2052) := by
  rw [linked_text_defined uninit jalNextLines ds ts (by decide),
    linked_text_defined uninit jal2048Lines ds ts (by decide)]
  exact ⟨by decide, by decide⟩

theorem relocate_all_length (uninit : Nat → Nat) (labels : List sLinkedLabel)
    (text : List sAssembledInstruction) :
    ∀ address, (relocate_all uninit labels address text).length = text.length := by
  induction text with
  | nil => intro address; rfl
  | cons node rest ih => intro address; simp only [relocate_all, List.length_cons, ih]

theorem relocate_all_getElem_opt (uninit : Nat → Nat) (labels : List sLinkedLabel)
    (text : List sAssembledInstruction) :
    ∀ (address k : Nat), address < 4294967296 →
      (relocate_all uninit labels address text)[k]?
        = (text[k]?).map (relocate uninit labels ((address + 4 * k) % 4294967296)) := by
  induction text with
  | nil => intro address k _; simp [relocate_all]
  | cons node rest ih =>
    intro address k ha
    cases k with
    | zero => simp [relocate_all, Nat.mod_eq_of_lt ha]
    | succ k =>
      simp only [relocate_all, List.getElem?_cons_succ]
      rw [ih _ _ (Nat.mod_lt _ (by norm_num))]
      have : ((address + 4) % 4294967296 + 4 * k) % 4294967296
          = (address + 4 * (k + 1)) % 4294967296 := by omega
      rw [this]

theorem relocate_found (uninit : Nat → Nat) (labels : List sLinkedLabel) (address : Nat)
    (node : sAssembledInstruction) (target : CString) (a : Nat)
    (ht : node.target_label = some target) (hf : find_label labels target = some a) :
    relocate uninit labels address node
      = apply_relocation node ((a + 4294967296 - address) % 4294967296) := by
  unfold relocate
  simp only [ht, hf]

/-- C6 (evaluation): for the single line `beq x0, x0, L` with `L` defined
nowhere, `link_program` returns a result; with the uninitialised target address
holding zero the word `0x63` is patched to `0x800000E3` and emitted. -/
theorem beq_undefined_label_completes :
    linesTargetsDefined beqUndefinedLines = false ∧
    ((assemble_program beqUndefinedLines).map (fun p => p.text.map (fun i => i.binary))
      = some [0x63]) ∧
    ∃ r, assemble_and_link zeroUninit beqUndefinedLines zeroSegment zeroSegment = some r ∧
      r.text.map (fun i => i.binary) = [0x800000E3] ∧
      [r.text_segment 0, r.text_segment 1, r.text_segment 2, r.text_segment 3]
        = [0xE3, 0x00, 0x00, 0x80] :=
  ⟨by decide, by decide, _, rfl, by decide, by decide⟩

/-- The word emitted for the undefined target follows the leftover content of
`target_address`: when that content is the address of the `beq` itself the word
stays `0x63`, a branch with offset zero. -/
theorem beq_undefined_label_other_content :
    (assemble_and_link (fun _ => TEXT_ADDRESS) beqUndefinedLines zeroSegment zeroSegment).map
      (fun r => r.text.map (fun i => i.binary)) = some [0x63] := by
  decide

/-- Relocation away from undefined targets: `link_program` leaves one
instruction per instruction of the text sequence; an instruction without target
label is left as assembled, and an instruction whose target label is found in
the label list is patched with the offset from its own address to the address of
the first matching label. -/
theorem link_program_completes (uninit : Nat → Nat) (program : sAssembledProgram)
    (ds ts : Segment) :
    (link_program uninit program ds ts).text.length = program.text.length ∧
    ∀ (k : Nat) (node : sAssembledInstruction), program.text[k]? = some node →
      (node.target_label = none →
        (link_program uninit program ds ts).text[k]? = some node) ∧
      (∀ target a, node.target_label = some target →
        find_label (program_labels program) target = some a →
        (link_program uninit program ds ts).text[k]? = some (apply_relocation node
          ((a + 4294967296 - (TEXT_ADDRESS + 4 * k) % 4294967296) % 4294967296))) := by
  rw [link_program_text]
  refine ⟨relocate_all_length _ _ _ _, ?_⟩
  intro k node hk
  rw [relocate_all_getElem_opt _ _ _ _ _ (by decide), hk, Option.map_some']
  refine ⟨fun hn => ?_, fun target a ht hf => ?_⟩
  · simp only [relocate, hn]
  · rw [relocate_found uninit _ _ node target a ht hf]

theorem link_program_completes_witness :
    (link_program zeroUninit
        { data := [], text := [⟨0xEF, some "L".toList, none, .LINKER_JAL⟩,
                              ⟨0x13, none, some "L".toList, .LINKER_NONE⟩] }
        zeroSegment zeroSegment).text[0]?
      = some (apply_relocation ⟨0xEF, some "L".toList, none, .LINKER_JAL⟩
          ((4194312 + 4294967296 - (TEXT_ADDRESS + 4 * 0) % 4294967296) % 4294967296)) :=
  ((link_program_completes zeroUninit
      { data := [], text := [⟨0xEF, some "L".toList, none, .LINKER_JAL⟩,
                            ⟨0x13, none, some "L".toList, .LINKER_NONE⟩] }
      zeroSegment zeroSegment).2 0 ⟨0xEF, some "L".toList, none, .LINKER_JAL⟩ rfl).2
    "L".toList 4194312 rfl (by decide)

/-! ## The data loop as a sequence of stores -/

theorem applyStores_append (stores1 stores2 : List (Nat × Nat)) :
    ∀ seg : Segment,
      applyStores seg (stores1 ++ stores2) = applyStores (applyStores seg stores1) stores2 := by
  induction stores1 with
  | nil => intro seg; rfl
  | cons s rest ih => intro seg; exact ih (storeByte seg s.1 s.2)

theorem storeBytes_eq_applyStores (seg : Segment) (base : Nat) (data : List Nat) (n : Nat) :
    storeBytes seg base data n = applyStores seg (node_stores base data n) := by
  induction n with
  | zero => rfl
  | succ i ih =>
    simp only [storeBytes, node_stores, applyStores_append, applyStores, ih]

theorem applyStores_apply (stores : List (Nat × Nat)) :
    ∀ (seg : Segment) (k : Nat),
      applyStores seg stores k = (lastStore k stores).getD (seg k) := by
  induction stores with
  | nil => intro seg k; rfl
  | cons s rest ih =>
    intro seg k
    simp only [applyStores, lastStore, ih]
    cases lastStore k rest with
    | some v => rfl
    | none =>
      by_cases h : k = s.1
      · simp [storeByte, h]
      · simp [storeByte, h]

theorem link_data_loop_eq (data : List sAssembledData) :
    ∀ st : DataLoopState,
      (link_data_loop st data).data_segment
          = applyStores st.data_segment (data_stores st.address data) ∧
        (link_data_loop st data).address = data_end_address st.address data := by
  induction data with
  | nil => intro st; exact ⟨rfl, rfl⟩
  | cons d rest ih =>
    intro st
    have h := ih (link_data_node st d)
    simp only [link_data_loop, List.foldl_cons] at h ⊢
    rw [h.1, h.2]
    simp only [link_data_node, data_stores, data_end_address, applyStores_append,
      storeBytes_eq_applyStores, and_self]

/-- The data segment `link_program` leaves: the initial buffer with the stores
of the data loop applied. -/
theorem link_program_data_segment (uninit : Nat → Nat) (program : sAssembledProgram)
    (ds ts : Segment) (k : Nat) :
    (link_program uninit program ds ts).data_segment k
        = (lastStore k (data_stores DATA_ADDRESS program.data)).getD (ds k) := by
  simp only [link_program]
  rw [(link_data_loop_eq program.data
    { address := DATA_ADDRESS, data_segment := ds, labels := [] }).1, applyStores_apply]

/-- The running address at the end of the data loop of `link_program`. -/
theorem link_program_data_end (uninit : Nat → Nat) (program : sAssembledProgram)
    (ds ts : Segment) :
    (link_program uninit program ds ts).data_end
        = data_end_address DATA_ADDRESS program.data := by
  simp only [link_program]
  rw [(link_data_loop_eq program.data
    { address := DATA_ADDRESS, data_segment := ds, labels := [] }).2]

/-- C7 (evaluation): for `.space 10` followed by `.word 0xAABBCCDD` the bytes
`DD CC BB AA` are stored at data-segment offsets 14..17, offsets 10..13 keep the
initial content of the buffer, and the running address ends at offset 14. -/
theorem space_10_word_lands_at_14 :
    assemble_program spaceWordLines = some spaceWordProgram ∧
      ∀ (uninit : Nat → Nat) (ds ts : Segment),
        [14, 15, 16, 17].map (link_program uninit spaceWordProgram ds ts).data_segment
            = [0xDD, 0xCC, 0xBB, 0xAA] ∧
        [10, 11, 12, 13].map (link_program uninit spaceWordProgram ds ts).data_segment
            = [ds 10, ds 11, ds 12, ds 13] ∧
        (link_program uninit spaceWordProgram ds ts).data_end = DATA_ADDRESS + 14 := by
  refine ⟨by decide, fun uninit ds ts => ?_⟩
  have h : data_stores DATA_ADDRESS spaceWordProgram.data
      = [(14, 0xDD), (15, 0xCC), (16, 0xBB), (17, 0xAA)] := by decide
  simp only [List.map_cons, List.map_nil, link_program_data_segment, link_program_data_end, h]
  exact ⟨by simp [lastStore], by simp [lastStore], by decide⟩

/-! ## Alignment -/

theorem data_end_address_append (pre post : List sAssembledData) :
    ∀ address, data_end_address address (pre ++ post)
      = data_end_address (data_end_address address pre) post := by
  induction pre with
  | nil => intro address; rfl
  | cons d rest ih => intro address; exact ih (data_node_address address d)

theorem data_stores_append (pre post : List sAssembledData) :
    ∀ address, data_stores address (pre ++ post)
      = data_stores address pre ++ data_stores (data_end_address address pre) post := by
  induction pre with
  | nil => intro address; rfl
  | cons d rest ih =>
    intro address
    show _ ++ data_stores _ (rest ++ post) = (_ ++ _) ++ _
    rw [ih, List.append_assoc]
    rfl

theorem data_node_address_lt (address : Nat) (d : sAssembledData) :
    data_node_address address d < 4294967296 := by
  unfold data_node_address
  simp only
  split_ifs <;> omega

theorem data_end_address_lt (data : List sAssembledData) :
    ∀ address, address < 4294967296 → data_end_address address data < 4294967296 := by
  induction data with
  | nil => intro address h; exact h
  | cons d rest ih =>
    intro address _
    exact ih _ (data_node_address_lt address d)

/-- An `ALIGN` item as `_data_to_binary` builds it: no payload. -/
theorem data_to_binary_align (args : List CString) (item : sAssembledData)
    (h : _data_to_binary args .ALIGN = some item) :
    item.data_len = 0 ∧ item.data = [] ∧ item.linker_code = .LINKER_ALIGN := by
  unfold _data_to_binary at h
  cases ha : args[1]? with
  | none => simp [ha] at h
  | some a =>
    simp only [ha, Option.bind_eq_bind, Option.some_bind, Option.pure_def,
      Option.some.injEq] at h
    subst h
    exact ⟨rfl, rfl, rfl⟩

/-- The address adjustment of an item without payload and with code `ALIGN`. -/
theorem data_node_address_align (a n : Nat) (item : sAssembledData)
    (ha : a < 4294967296) (hn : n < 31)
    (hlen : item.data_len = 0) (hcode : item.linker_code = .LINKER_ALIGN)
    (harg : item.arg_n = n) :
    data_node_address a item
      = if a % 2 ^ n > 0 then (a + (2 ^ n - a % 2 ^ n)) % 4294967296 else a := by
  have hP : (1 <<< n) % 4294967296 = 2 ^ n := by
    rw [Nat.one_shiftLeft]
    apply Nat.mod_eq_of_lt
    calc 2 ^ n < 2 ^ 31 := Nat.pow_lt_pow_right (by norm_num) hn
      _ < 4294967296 := by norm_num
  unfold data_node_address
  simp only [hlen, hcode, harg, hP, Nat.add_zero, Nat.mod_eq_of_lt ha, if_true]
  rw [if_neg (by decide)]

/-- Rounding up to a multiple of `P`: `a + (P - a % P)` is the least multiple of
`P` that is at least `a`, when `a` is not itself a multiple. -/
theorem round_up_least (a P : Nat) (hP : 0 < P) (hr : 0 < a % P) :
    P ∣ a + (P - a % P) ∧ a ≤ a + (P - a % P) ∧
      ∀ m, P ∣ m → a ≤ m → a + (P - a % P) ≤ m := by
  have hlt : a % P < P := Nat.mod_lt _ hP
  have hdm : P * (a / P) + a % P = a := Nat.div_add_mod a P
  have heq : a + (P - a % P) = P * (a / P + 1) := by
    rw [Nat.mul_add, Nat.mul_one]; omega
  refine ⟨heq ▸ Dvd.intro _ rfl, by omega, ?_⟩
  rintro m ⟨c, rfl⟩ hle
  rw [heq]
  apply Nat.mul_le_mul_left
  by_contra hc
  have hc' : c ≤ a / P := by omega
  have : P * c ≤ P * (a / P) := Nat.mul_le_mul_left _ hc'
  omega

/-- C8 (counterexample): after `.space 0xEFFFFFFF` the running address is
`0xFFFFFFFF`; the following `.align 2` leaves it at `0`, which is not a multiple
of 4 at or above `0xFFFFFFFF`. -/
theorem align_wraps_to_zero :
    assemble_program spaceAlignWrapLines = some spaceAlignWrapProgram ∧
    (link_program zeroUninit { data := spaceAlignWrapProgram.data.take 1, text := [] }
      zeroSegment zeroSegment).data_end = 0xFFFFFFFF ∧
    (link_program zeroUninit spaceAlignWrapProgram zeroSegment zeroSegment).data_end = 0 ∧
    ¬ (0xFFFFFFFF ≤ (link_program zeroUninit spaceAlignWrapProgram
        zeroSegment zeroSegment).data_end) := by
  decide

/-- The pass of the loop of `assemble_program` over an align line in data state
appends the item of `_data_to_binary` with the label of the line, which is no
label when the line has none. -/
theorem assemble_line_align (st : AssemblerLoop) (l : line) (item0 : sAssembledData)
    (hstate : st.state = .S_DATA) (htype : l.type = .ALIGN)
    (hitem : _data_to_binary l.token_listhead .ALIGN = some item0) :
    assemble_line st l
      = some { st with data := st.data ++ [{ item0 with label := l.label }] } := by
  have hlab : item0.label = none := by
    unfold _data_to_binary at hitem
    cases ha : l.token_listhead[1]? with
    | none => simp [ha] at hitem
    | some a =>
      simp only [ha, Option.bind_eq_bind, Option.some_bind, Option.pure_def,
        Option.some.injEq] at hitem
      subst hitem
      rfl
  unfold assemble_line
  rw [htype, hstate]
  simp only [reduceCtorEq, if_false, LineType.dataType?, hitem, Option.bind_eq_bind,
    Option.some_bind, Option.pure_def]
  obtain ⟨d, dl, lab0, an, lc⟩ := item0
  simp only at hlab
  subst hlab
  cases l.label <;> rfl

/-- C8 (amended): for every data sequence `pre ++ item :: post` whose item is an
`align n` item with `n < 31`, that is, the item `_data_to_binary` builds for an
align line, with or without the label of the line assigned to it: if `a` is the
running address before the item and some multiple of `2 ^ n` at or above `a` is
below `2 ^ 32`, then the running address after the item is the least multiple of
`2 ^ n` at or above `a` (equal to `a` when `a` is a multiple already), and the
item stores no byte into the data segment. -/
theorem align_rounds_up (uninit : Nat → Nat) (ds ts : Segment)
    (pre : List sAssembledData) (text : List sAssembledInstruction)
    (args : List CString) (item0 : sAssembledData) (lbl : Option CString) (n : Nat)
    (hitem : _data_to_binary args .ALIGN = some item0) (harg : item0.arg_n = n)
    (hn : n < 31)
    (hfit : ∃ m, 2 ^ n ∣ m ∧
      (link_program uninit { data := pre, text := text } ds ts).data_end ≤ m ∧
      m < 4294967296) :
    2 ^ n ∣ (link_program uninit
      { data := pre ++ [{ item0 with label := lbl }], text := text } ds ts).data_end ∧
    (link_program uninit { data := pre, text := text } ds ts).data_end
      ≤ (link_program uninit
          { data := pre ++ [{ item0 with label := lbl }], text := text } ds ts).data_end ∧
    (∀ m, 2 ^ n ∣ m →
      (link_program uninit { data := pre, text := text } ds ts).data_end ≤ m →
      (link_program uninit
        { data := pre ++ [{ item0 with label := lbl }], text := text } ds ts).data_end ≤ m) ∧
    (2 ^ n ∣ (link_program uninit { data := pre, text := text } ds ts).data_end →
      (link_program uninit
        { data := pre ++ [{ item0 with label := lbl }], text := text } ds ts).data_end
        = (link_program uninit { data := pre, text := text } ds ts).data_end) ∧
    (∀ k, (link_program uninit
        { data := pre ++ [{ item0 with label := lbl }], text := text } ds ts).data_segment k
      = (link_program uninit { data := pre, text := text } ds ts).data_segment k) := by
  obtain ⟨hlen0, _, hcode0⟩ := data_to_binary_align args item0 hitem
  generalize hdef : ({ item0 with label := lbl } : sAssembledData) = item
  have hlen : item.data_len = 0 := by rw [← hdef]; exact hlen0
  have hcode : item.linker_code = .LINKER_ALIGN := by rw [← hdef]; exact hcode0
  have harg1 : item.arg_n = n := by rw [← hdef]; exact harg
  simp only [link_program_data_end, link_program_data_segment] at hfit ⊢
  have ha : data_end_address DATA_ADDRESS pre < 4294967296 :=
    data_end_address_lt pre _ (by decide)
  have hstores : data_stores DATA_ADDRESS (pre ++ [item]) = data_stores DATA_ADDRESS pre := by
    rw [data_stores_append]
    simp [data_stores, hlen, node_stores]
  have hend : data_end_address DATA_ADDRESS (pre ++ [item])
      = data_node_address (data_end_address DATA_ADDRESS pre) item := by
    rw [data_end_address_append]; rfl
  rw [hend, hstores, data_node_address_align _ n item ha hn hlen hcode harg1]
  generalize data_end_address DATA_ADDRESS pre = a at hfit ha ⊢
  obtain ⟨m0, hm0d, hm0a, hm0lt⟩ := hfit
  have hP : 0 < 2 ^ n := by positivity
  by_cases hr : a % 2 ^ n > 0
  · obtain ⟨hd, hle, hleast⟩ := round_up_least a (2 ^ n) hP hr
    have hfits : a + (2 ^ n - a % 2 ^ n) < 4294967296 :=
      lt_of_le_of_lt (hleast m0 hm0d hm0a) hm0lt
    rw [if_pos hr, Nat.mod_eq_of_lt hfits]
    refine ⟨hd, hle, hleast, ?_, fun _ => rfl⟩
    rintro ⟨c, hc⟩
    rw [hc, Nat.mul_mod_right] at hr
    exact absurd hr (by decide)
  · rw [if_neg hr]
    have h0 : a % 2 ^ n = 0 := by omega
    exact ⟨Nat.dvd_of_mod_eq_zero h0, le_refl _, fun m _ h => h, fun _ => rfl, fun _ => rfl⟩

theorem align_rounds_up_witness :
    2 ^ 2 ∣ (link_program zeroUninit
        { data := [⟨[97, 98, 0], 3, none, 0, .LINKER_NONE⟩] ++
            [{ (⟨[], 0, none, 2, .LINKER_ALIGN⟩ : sAssembledData) with
                label := some "buf".toList }], text := [] }
        zeroSegment zeroSegment).data_end ∧
    _data_to_binary [".align".toList, "2".toList] .ALIGN
      = some ⟨[], 0, none, 2, .LINKER_ALIGN⟩ ∧
    (link_program zeroUninit
        { data := [⟨[97, 98, 0], 3, none, 0, .LINKER_NONE⟩,
            ⟨[], 0, some "buf".toList, 2, .LINKER_ALIGN⟩], text := [] }
        zeroSegment zeroSegment).data_end = DATA_ADDRESS + 4 ∧
    (link_program zeroUninit { data := [⟨[97, 98, 0], 3, none, 0, .LINKER_NONE⟩], text := [] }
        zeroSegment zeroSegment).data_end = DATA_ADDRESS + 3 :=
  ⟨(align_rounds_up zeroUninit zeroSegment zeroSegment
      [⟨[97, 98, 0], 3, none, 0, .LINKER_NONE⟩] [] [".align".toList, "2".toList]
      ⟨[], 0, none, 2, .LINKER_ALIGN⟩ (some "buf".toList) 2 (by decide) rfl (by decide)
      ⟨DATA_ADDRESS + 4, by decide, by decide, by decide⟩).1,
    by decide, by decide, by decide⟩

/-! ## Pseudo-instructions -/

theorem get_imm_zero : _get_imm "0".toList = 0 := by decide

/-- The word of `auipc rd, 0` / `lui rd, 0` style lines with immediate token `0`. -/
theorem upper_zero_word (m trd : CString) (opcode : Nat) :
    assemble_upper 0 [m, trd, "0".toList] opcode
      = some (opcode % 128 + (toU32 (_get_reg trd) % 32) * 128) := by
  simp only [assemble_upper, List.getElem?_cons_succ, List.getElem?_cons_zero,
    Option.bind_eq_bind, Option.some_bind, Option.pure_def, bind_opcode_zero, get_imm_zero]
  rw [bind_rd_eq _ _ (by omega)]
  simp [_bind_imm_u_type, toU32]

/-- The word of `addi rd, rs1, 0`. -/
theorem addi_zero_word (trd trs1 : CString) :
    _assemble_i_type 0 ["addi".toList, trd, trs1, "0".toList] 0x13 0x0
      = some (0x13 % 128 + (toU32 (_get_reg trd) % 32) * 128 + (0x0 % 8) * 4096
          + (toU32 (_get_reg trs1) % 32) * 32768 + 0 * 1048576) := by
  rw [assemble_i_type_eq, get_imm_zero]
  have : _sign_reduce (toU32 0) 12 % 4096 = 0 := by decide
  rw [this]

/-- C9: for a register token naming `rd` in 0..31 and any label token `L`,
`_psuedo_to_binary` on `la rd, L` returns exactly two chained instructions: an
`auipc` (opcode `0x17`, rd field `rd`, bits `[12:31]` zero) followed by an `addi`
(opcode `0x13`, funct3 `0`, rd and rs1 fields `rd`, bits `[20:31]` zero), both
with target label `L` and the same relocation kind, no definition label; the
chain is a function of the two tokens only. -/
theorem psuedo_la_expansion (trd L : CString) (rd : Nat) (hrd : rd < 32)
    (htrd : _get_reg trd = (rd : Int)) :
    ∃ a b, _psuedo_to_binary ["la".toList, trd, L] = some [a, b] ∧
      opcodeOf a.binary = 0x17 ∧ rdOf a.binary = rd ∧ immUOf a.binary = 0 ∧
      opcodeOf b.binary = 0x13 ∧ funct3Of b.binary = 0 ∧ rdOf b.binary = rd ∧
      rs1Of b.binary = rd ∧ immIOf b.binary = 0 ∧
      a.target_label = some L ∧ b.target_label = some L ∧
      a.linker_code = b.linker_code ∧ a.linker_code = .LINKER_LA_AUIPC ∧
      a.label = none ∧ b.label = none := by
  have h : _psuedo_to_binary ["la".toList, trd, L] =
      ((assemble_upper 0 ["auipc".toList, trd, "0".toList] 0x17).map
          (fun b => { callocInstruction with binary := b })).bind (fun i =>
        ((_assemble_i_type 0 ["addi".toList, trd, trd, "0".toList] 0x13 0x0).map
          (fun b => { callocInstruction with binary := b })).bind (fun n =>
            some [{ i with linker_code := .LINKER_LA_AUIPC, target_label := some L },
                  { n with linker_code := .LINKER_LA_AUIPC, target_label := some L }])) := rfl
  rw [h, upper_zero_word, addi_zero_word, htrd]
  refine ⟨_, _, rfl, ?_⟩
  obtain ⟨h1, h2, h3, h4, h5⟩ :=
    i_type_fields 0x13 0x0 rd rd 0 (by norm_num) (by norm_num) hrd hrd (by norm_num) _ rfl
  have hr : toU32 (rd : Int) % 32 = rd := by rw [toU32_natCast]; omega
  refine ⟨?_, ?_, ?_, h1, h2, h3, h4, h5, rfl, rfl, rfl, rfl, rfl, rfl⟩
  · show (0x17 % 128 + toU32 (rd : Int) % 32 * 128) % 128 = 0x17
    rw [hr]; omega
  · show (0x17 % 128 + toU32 (rd : Int) % 32 * 128) / 128 % 32 = rd
    rw [hr]; omega
  · show (0x17 % 128 + toU32 (rd : Int) % 32 * 128) / 4096 % 1048576 = 0
    rw [hr]; omega

theorem psuedo_la_expansion_witness :
    ∃ a b, _psuedo_to_binary ["la".toList, "a0".toList, "msg".toList] = some [a, b] ∧
      opcodeOf a.binary = 0x17 ∧ rdOf a.binary = 10 ∧ immUOf a.binary = 0 ∧
      opcodeOf b.binary = 0x13 ∧ funct3Of b.binary = 0 ∧ rdOf b.binary = 10 ∧
      rs1Of b.binary = 10 ∧ immIOf b.binary = 0 ∧
      a.target_label = some "msg".toList ∧ b.target_label = some "msg".toList ∧
      a.linker_code = b.linker_code ∧ a.linker_code = .LINKER_LA_AUIPC ∧
      a.label = none ∧ b.label = none :=
  psuedo_la_expansion "a0".toList "msg".toList 10 (by decide) (by decide)

theorem assemble_upper_some (m trd timm : CString) (opcode : Nat) :
    assemble_upper 0 [m, trd, timm] opcode =
      some (_bind_imm_u_type
        (_bind_rd (_bind_opcode 0 opcode) (toU32 (_get_reg trd))) (toU32 (_get_imm timm))) := by
  rfl

/-- C10: for every register token and every immediate token, `li rd, imm`
expands to exactly one instruction when bits 12..31 of the 32-bit immediate are
all zero and to exactly two instructions otherwise; `li rd, 5` yields one
instruction and `li rd, 0x123456` yields two. -/
theorem psuedo_li_length (trd timm : CString) :
    (∃ chain, _psuedo_to_binary ["li".toList, trd, timm] = some chain ∧
      chain.length = if immUOf (toU32 (_get_imm timm)) = 0 then 1 else 2) ∧
    (_psuedo_to_binary ["li".toList, trd, "5".toList]).map List.length = some 1 ∧
    (_psuedo_to_binary ["li".toList, trd, "0x123456".toList]).map List.length = some 2 := by
  have key : ∀ t : CString, ∃ chain, _psuedo_to_binary ["li".toList, trd, t] = some chain ∧
      chain.length = if immUOf (toU32 (_get_imm t)) = 0 then 1 else 2 := by
    intro t
    have h : _psuedo_to_binary ["li".toList, trd, t] =
        ((_assemble_i_type 0 ["addi".toList, trd, "x0".toList, t] 0x13 0x0).map
            (fun b => { callocInstruction with binary := b })).bind (fun i =>
          if toU32 (_get_imm t) >>> 12 ≠ 0 then
            ((assemble_upper 0 ["lui".toList, trd, t] 0x37).map
              (fun b => { callocInstruction with binary := b })).bind (fun n => some [i, n])
          else some [i]) := rfl
    rw [h, assemble_i_type_eq, assemble_upper_some]
    simp only [Option.map_some', Option.some_bind]
    have hlt := toU32_lt (_get_imm t)
    have hbits : immUOf (toU32 (_get_imm t)) = toU32 (_get_imm t) >>> 12 := by
      unfold immUOf; omega
    rw [hbits]
    by_cases hz : toU32 (_get_imm t) >>> 12 = 0
    · exact ⟨_, by rw [if_neg (by simpa using hz)], by simp [hz]⟩
    · exact ⟨_, by rw [if_pos hz], by simp [hz]⟩
  refine ⟨key timm, ?_, ?_⟩
  · obtain ⟨chain, hc, hl⟩ := key "5".toList
    rw [hc, Option.map_some', hl]
    decide
  · obtain ⟨chain, hc, hl⟩ := key "0x123456".toList
    rw [hc, Option.map_some', hl]
    decide

/-- C11 (evaluation): `li x5, 0x123456` expands to two instructions of which the
first is the `addi` (opcode `0x13`) and the second the `lui` (opcode `0x37`). -/
theorem psuedo_li_wide_order :
    (_psuedo_to_binary ["li".toList, "x5".toList, "0x123456".toList]).map
        (fun chain => chain.map (fun i => opcodeOf i.binary)) = some [0x13, 0x37] ∧
    (assemble_program liWideLines).map
        (fun p => p.text.map (fun i => (opcodeOf i.binary, rdOf i.binary)))
      = some [(0x13, 5), (0x37, 5)] := by
  decide

/-- C12 (evaluation): for the text sequence of the single line `L: nop` (index 0)
the label list of `link_program` records `L` at `TEXT_ADDRESS + 4`, the address
of the following instruction slot. -/
theorem text_label_recorded_after (uninit : Nat → Nat) (ds ts : Segment) :
    (assemble_program labelledNopLines).map
        (fun p => (link_program uninit p ds ts).labels)
      = some [{ label := "L".toList, address := TEXT_ADDRESS + 4 }] ∧
    TEXT_ADDRESS + 4 ≠ TEXT_ADDRESS + 4 * 0 := by
  refine ⟨?_, by decide⟩
  simp only [link_program_labels]
  decide

/-! ## The label list -/

theorem add_label_append (labels : List sLinkedLabel) (label : Option CString)
    (address : Nat) : add_label labels label address = labels ++ add_label [] label address := by
  cases label <;> simp [add_label]

theorem link_text_labels_eq (text : List sAssembledInstruction) :
    ∀ (address : Nat) (labels : List sLinkedLabel),
      link_text_labels address labels text = labels ++ text_labels address text := by
  induction text with
  | nil => intro address labels; simp [link_text_labels, text_labels]
  | cons node rest ih =>
    intro address labels
    simp only [link_text_labels, text_labels, ih]
    rw [add_label_append, List.append_assoc]

theorem link_data_loop_labels_eq (data : List sAssembledData) :
    ∀ st : DataLoopState,
      (link_data_loop st data).labels = st.labels ++ data_labels st.address data := by
  induction data with
  | nil => intro st; simp [link_data_loop, data_labels]
  | cons d rest ih =>
    intro st
    have h := ih (link_data_node st d)
    simp only [link_data_loop, List.foldl_cons] at h ⊢
    rw [h]
    simp only [link_data_node, data_labels]
    rw [add_label_append, List.append_assoc]

/-- The label list of a program: the labelled data items in item order, then the
labelled instructions in instruction order. -/
theorem program_labels_eq (program : sAssembledProgram) :
    program_labels program
      = data_labels DATA_ADDRESS program.data ++ text_labels TEXT_ADDRESS program.text := by
  unfold program_labels
  rw [link_text_labels_eq, link_data_loop_labels_eq]
  rfl

theorem find_label_first (pre post : List sLinkedLabel) (target : CString) (a : Nat)
    (hpre : ∀ l ∈ pre, l.label ≠ target) :
    find_label (pre ++ { label := target, address := a } :: post) target = some a := by
  induction pre with
  | nil => simp [find_label]
  | cons l rest ih =>
    have hl : l.label ≠ target := hpre l (List.mem_cons_self _ _)
    simp only [List.cons_append, find_label, if_neg hl]
    exact ih (fun x hx => hpre x (List.mem_cons_of_mem _ hx))

/-- C13 (counterexample): with `L` defined on the instructions at `TEXT_ADDRESS + 4`
and `TEXT_ADDRESS + 8` (recorded as `+8` and `+12`), the `jal ra, L` at
`TEXT_ADDRESS` is patched with the offset `8` to the first recorded definition,
not with the offset `12` to the last one. -/
theorem duplicate_label_first_wins :
    ((assemble_program duplicateLabelLines).map (fun p => program_labels p)
      = some [{ label := "L".toList, address := TEXT_ADDRESS + 8 },
              { label := "L".toList, address := TEXT_ADDRESS + 12 }]) ∧
    ((linked_text zeroUninit duplicateLabelLines zeroSegment zeroSegment).map
        (fun t => t.head?.map (fun i => decodeJ i.binary)) = some (some 8)) ∧
    (8 : Int) ≠ 12 := by
  decide

/-- C13 (amended): the label list of `link_program` holds the labelled data items
in item order followed by the labelled instructions in instruction order, and
every instruction whose target label occurs in that list is patched with the
offset to the address recorded for the first node of that name. -/
theorem first_definition_wins (uninit : Nat → Nat) (program : sAssembledProgram)
    (ds ts : Segment) :
    (link_program uninit program ds ts).labels
      = data_labels DATA_ADDRESS program.data ++ text_labels TEXT_ADDRESS program.text ∧
    ∀ (k : Nat) (node : sAssembledInstruction) (target : CString)
      (pre post : List sLinkedLabel) (a : Nat),
      program.text[k]? = some node → node.target_label = some target →
      (link_program uninit program ds ts).labels
        = pre ++ { label := target, address := a } :: post →
      (∀ l ∈ pre, l.label ≠ target) →
      (link_program uninit program ds ts).text[k]? = some (apply_relocation node
        ((a + 4294967296 - (TEXT_ADDRESS + 4 * k) % 4294967296) % 4294967296)) := by
  rw [link_program_labels, link_program_text]
  refine ⟨program_labels_eq program, ?_⟩
  intro k node target pre post a hk ht hlabels hpre
  rw [relocate_all_getElem_opt _ _ _ _ _ (by decide), hk, Option.map_some',
    relocate_found uninit _ _ node target a ht (by rw [hlabels]; exact find_label_first _ _ _ _ hpre)]

theorem first_definition_wins_witness :
    (link_program zeroUninit
        { data := [], text := [⟨0xEF, some "L".toList, none, .LINKER_JAL⟩,
                              ⟨0x13, none, some "L".toList, .LINKER_NONE⟩,
                              ⟨0x13, none, some "L".toList, .LINKER_NONE⟩] }
        zeroSegment zeroSegment).text[0]?
      = some (apply_relocation ⟨0xEF, some "L".toList, none, .LINKER_JAL⟩
          ((4194312 + 4294967296 - (TEXT_ADDRESS + 4 * 0) % 4294967296) % 4294967296)) :=
  (first_definition_wins zeroUninit
      { data := [], text := [⟨0xEF, some "L".toList, none, .LINKER_JAL⟩,
                            ⟨0x13, none, some "L".toList, .LINKER_NONE⟩,
                            ⟨0x13, none, some "L".toList, .LINKER_NONE⟩] }
      zeroSegment zeroSegment).2 0 ⟨0xEF, some "L".toList, none, .LINKER_JAL⟩ "L".toList
    [] [⟨"L".toList, 4194316⟩] 4194312 rfl rfl (by decide) (by simp)

/-- C14 (evaluation): for `la x6, msg` with `msg` a data label, the `addi` half is
assembled with funct3 `0` and rs1 `6`; after `link_program` its word has funct3
`7` and rs1 `7`: the U-type binding applied to it writes bits `[12:31]`. -/
theorem la_addi_half_fields_change (uninit : Nat → Nat) (ds ts : Segment) :
    ((assemble_program laDataLines).map (fun p => p.text.map (fun i => i.binary))
      = some [0x00000317, 0x00030313]) ∧
    ((linked_text uninit laDataLines ds ts).map (fun t => t.map (fun i => i.binary))
      = some [0x0000F317, 0x0003F313]) ∧
    fixedFields 0x00030313 = (0x13, 6, 0, 6) ∧
    fixedFields 0x0003F313 = (0x13, 6, 7, 7) := by
  rw [linked_text_defined uninit laDataLines ds ts (by decide)]
  decide

/-! ## Unknown operation names -/

theorem instruction_to_binary_unknown (opName : CString) (rest : List CString)
    (h : opName ∉ supportedMnemonics) :
    _instruction_to_binary (opName :: rest) = some callocInstruction := by
  simp [supportedMnemonics] at h
  simp [_instruction_to_binary, h]

theorem psuedo_to_binary_not (rest : List CString) :
    _psuedo_to_binary ("not".toList :: rest) = some [callocInstruction] := by
  simp [_psuedo_to_binary]

theorem check_psuedo_unknown (opName : CString) (h : opName ∉ supportedMnemonics)
    (hnot : opName ≠ "not".toList) : _check_psuedo opName = false := by
  simp [supportedMnemonics] at h
  simp at hnot
  have e : ∀ s : CString, ¬ opName = s → ¬ s = opName := fun s hs h => hs h.symm
  simp [_check_psuedo, psuedo_instructions, NUM_PSUEDO_INSTS, e, h, hnot]

/-- C15 (evaluation): the lines `nop`, `sltu x1, x2, x3`, `not x1, x2` assemble
without failure to a text sequence of three words, the last two being the zero
word appended for `sltu` and for `not`. -/
theorem unknown_mnemonic_appends_zero_word :
    "sltu".toList ∉ supportedMnemonics ∧ "not".toList ∉ supportedMnemonics ∧
    (assemble_program unknownMnemonicLines).map (fun p => p.text.map (fun i => i.binary))
      = some [0x13, 0, 0] := by
  decide

/-- The pass of the loop of `assemble_program` over an instruction line whose
operation name is outside the supported set, in text state: no failure is
reported and the zeroed node, carrying the label of the line, is appended to the
text sequence. -/
theorem unknown_mnemonic_zero_node (st : AssemblerLoop) (l : line) (opName : CString)
    (rest : List CString) (hstate : st.state = .S_TEXT) (htype : l.type = .INST)
    (htokens : l.token_listhead = opName :: rest) (h : opName ∉ supportedMnemonics) :
    assemble_line st l
      = some { st with text := st.text ++ set_head_label l.label [callocInstruction] } := by
  by_cases hnot : opName = "not".toList
  · have hc : _check_psuedo opName = true := by rw [hnot]; decide
    have hp : _psuedo_to_binary (opName :: rest) = some [callocInstruction] := by
      rw [hnot]; exact psuedo_to_binary_not rest
    simp [assemble_line, htype, hstate, htokens, hc, hp]
  · have hc := check_psuedo_unknown opName h hnot
    have hi := instruction_to_binary_unknown opName rest h
    simp [assemble_line, htype, hstate, htokens, hc, hi]

/-- C16: for every index `i` in 0..31, the numeric name at index `i` of the
table is `x` followed by the decimal digits of `i`, and `_get_reg` returns `i`
for the numeric name, for the ABI alias, and for either name enclosed in
parentheses; in particular `x11` and `s11` are not taken for `x1` and `s1`. -/
theorem get_reg_table (i : Fin 32) :
    registers.getD i.val [] = 'x' :: (Nat.repr i.val).toList ∧
    _get_reg (registers.getD i.val []) = (i.val : Int) ∧
    _get_reg (abi_registers.getD i.val []) = (i.val : Int) ∧
    _get_reg (parenthesised (registers.getD i.val [])) = (i.val : Int) ∧
    _get_reg (parenthesised (abi_registers.getD i.val [])) = (i.val : Int) ∧
    abi_registers = ["zero", "ra", "sp", "gp", "tp", "t0", "t1", "t2", "s0", "s1", "a0",
      "a1", "a2", "a3", "a4", "a5", "a6", "a7", "s2", "s3", "s4", "s5", "s6", "s7", "s8",
      "s9", "s10", "s11", "t3", "t4", "t5", "t6"].map String.toList ∧
    _get_reg "x11".toList = 11 ∧ _get_reg "x1".toList = 1 ∧
    _get_reg "s11".toList = 27 ∧ _get_reg "s1".toList = 9 := by
  revert i
  decide

/-- C17 (evaluation): for `srai x5, x6, 3` the word has opcode `0x13`, funct3 `5`,
the registers and the shift amount in their fields, and bits `[25:31]` equal to
`0x01`, not `0x20`: the pattern `0x20` is or-ed into the twelve immediate bits,
which sets bit 25 of the word; the word for `srli x5, x6, 3` has bits `[25:31]`
zero. -/
theorem srai_x5_x6_3_fields :
    (_instruction_to_binary ["srai".toList, "x5".toList, "x6".toList, "3".toList]).map
        (fun i => [opcodeOf i.binary, funct3Of i.binary, rdOf i.binary, rs1Of i.binary,
          rs2Of i.binary, funct7Of i.binary])
      = some [0x13, 5, 5, 6, 3, 0x01] ∧
    (_instruction_to_binary ["srli".toList, "x5".toList, "x6".toList, "3".toList]).map
        (fun i => [opcodeOf i.binary, funct3Of i.binary, rdOf i.binary, rs1Of i.binary,
          rs2Of i.binary, funct7Of i.binary])
      = some [0x13, 5, 5, 6, 3, 0x00] := by
  decide

/-! ## The `word` directive -/

theorem decodeWordsLE_wordBytes (v : Nat) (hv : v < 4294967296) (rest : List Nat) :
    decodeWordsLE (wordBytes v ++ rest) = v :: decodeWordsLE rest := by
  simp only [wordBytes, List.cons_append, List.nil_append, decodeWordsLE, List.cons.injEq,
    and_true, Nat.shiftRight_eq_div_pow]
  norm_num
  omega

theorem decodeWordsLE_flatMap (vals : List CString) :
    decodeWordsLE (vals.flatMap (fun a => wordBytes (toU32 (_get_imm a))))
      = vals.map (fun a => toU32 (_get_imm a)) := by
  induction vals with
  | nil => rfl
  | cons a rest ih =>
    simp only [List.flatMap_cons, List.map_cons]
    rw [decodeWordsLE_wordBytes _ (toU32_lt _), ih]

theorem flatMap_wordBytes_length (vals : List CString) :
    (vals.flatMap (fun a => wordBytes (toU32 (_get_imm a)))).length = 4 * vals.length := by
  induction vals with
  | nil => rfl
  | cons a rest ih =>
    simp only [List.flatMap_cons, List.length_append, List.length_cons, ih]
    have hlen : (wordBytes (toU32 (_get_imm a))).length = 4 := rfl
    omega

theorem flatMap_wordBytes_getD (vals : List CString) :
    ∀ (i : Nat) (j : Fin 4), i < vals.length →
      (vals.flatMap (fun a => wordBytes (toU32 (_get_imm a)))).getD (4 * i + j.val) 0
        = (wordBytes (toU32 (_get_imm (vals.getD i [])))).getD j.val 0 := by
  induction vals with
  | nil => intro i j h; simp at h
  | cons a rest ih =>
    intro i j h
    simp only [List.flatMap_cons]
    cases i with
    | zero =>
      have hj := j.isLt
      rw [List.getD_append _ _ _ _ (by simp [wordBytes, hj])]
      simp
    | succ i =>
      have hlen : (wordBytes (toU32 (_get_imm a))).length = 4 := rfl
      rw [List.getD_append_right _ _ _ _ (by rw [hlen]; omega), hlen]
      have : 4 * (i + 1) + j.val - 4 = 4 * i + j.val := by omega
      rw [this, ih i j (by simpa using h)]
      simp

/-- C18: for a `word` directive with value tokens `v_1 .. v_k`, `_data_to_binary`
produces a raw item (no label, linker code none) whose payload length is `4 * k`
and whose bytes `4 * i .. 4 * i + 3` are the four bytes of the `i`-th value
modulo `2 ^ 32`, least significant first; little-endian decoding of the payload
returns the values in order. -/
theorem data_to_binary_word (dir : CString) (vals : List CString) :
    ∃ item, _data_to_binary (dir :: vals) .WORD = some item ∧
      item.data_len = 4 * vals.length ∧ item.data.length = 4 * vals.length ∧
      item.linker_code = .LINKER_NONE ∧ item.label = none ∧
      (∀ (i : Fin vals.length) (j : Fin 4),
        item.data.getD (4 * i.val + j.val) 0
          = (toU32 (_get_imm (vals.getD i.val [])) / 256 ^ j.val) % 256) ∧
      decodeWordsLE item.data = vals.map (fun a => toU32 (_get_imm a)) := by
  refine ⟨{ callocData with
      data := vals.flatMap (fun a => wordBytes (toU32 (_get_imm a))),
      data_len := (vals.length + 1 - 1) * 4 }, ?_, ?_, ?_, rfl, rfl, ?_, ?_⟩
  · simp [_data_to_binary]
  · show (vals.length + 1 - 1) * 4 = 4 * vals.length
    omega
  · exact flatMap_wordBytes_length vals
  · intro i j
    show (vals.flatMap (fun a => wordBytes (toU32 (_get_imm a)))).getD _ 0 = _
    rw [flatMap_wordBytes_getD vals i.val j i.isLt]
    generalize toU32 (_get_imm (vals.getD i.val [])) = v
    fin_cases j <;> simp [wordBytes, Nat.shiftRight_eq_div_pow]
  · exact decodeWordsLE_flatMap vals

/-! ## The state machine of `assemble_program` -/

theorem assemble_line_unclassified (l : line) (h : notSegmentDirective l = true) :
    assemble_line initialLoop l = some initialLoop := by
  simp only [notSegmentDirective, Bool.and_eq_true, bne_iff_ne, ne_eq] at h
  simp [assemble_line, initialLoop, h.1, h.2]

theorem assemble_lines_dropWhile (lines : List line) :
    assemble_lines initialLoop lines
      = assemble_lines initialLoop (lines.dropWhile notSegmentDirective) := by
  induction lines with
  | nil => rfl
  | cons l rest ih =>
    by_cases h : notSegmentDirective l = true
    · rw [List.dropWhile_cons, if_pos h, ← ih]
      simp only [assemble_lines, assemble_line_unclassified l h]
    · rw [List.dropWhile_cons, if_neg h]

theorem assemble_lines_all_unclassified (lines : List line)
    (h : ∀ l ∈ lines, notSegmentDirective l = true) :
    assemble_lines initialLoop lines = some initialLoop := by
  induction lines with
  | nil => rfl
  | cons l rest ih =>
    simp only [assemble_lines, assemble_line_unclassified l (h l (List.mem_cons_self _ _))]
    exact ih (fun x hx => h x (List.mem_cons_of_mem _ hx))

/-- C19: for every sequence of lines, `assemble_program` returns what it returns
after deleting every line that precedes the first `DATA` or `TEXT`
segment-directive line; when no line is a segment directive both sequences are
empty. -/
theorem assemble_program_skips_unclassified (lines : List line) :
    assemble_program lines = assemble_program (lines.dropWhile notSegmentDirective) ∧
    ((∀ l ∈ lines, l.type ≠ .DATA ∧ l.type ≠ .TEXT) →
      assemble_program lines = some { data := [], text := [] }) := by
  refine ⟨?_, fun h => ?_⟩
  · show (assemble_lines initialLoop lines).map _ = (assemble_lines initialLoop _).map _
    rw [← assemble_lines_dropWhile]
  · show (assemble_lines initialLoop lines).map _ = _
    rw [assemble_lines_all_unclassified lines (fun l hl => by
      simp [notSegmentDirective, (h l hl).1, (h l hl).2])]
    rfl

theorem assemble_program_skips_unclassified_witness :
    assemble_program [instLine none ["nop"], dataLine .WORD none [".word", "1"]]
      = some { data := [], text := [] } :=
  (assemble_program_skips_unclassified
    [instLine none ["nop"], dataLine .WORD none [".word", "1"]]).2 (by decide)

/-! ## Expansion of instruction lines -/

theorem assemble_branch_label (ai : sAssembledInstruction) (args : List CString)
    (f : Nat) (i : sAssembledInstruction) (h : assemble_branch ai args f = some i) :
    i.label = ai.label := by
  unfold assemble_branch at h
  cases h1 : args[1]? <;> cases h2 : args[2]? <;> cases h3 : args[3]? <;>
    simp only [h1, h2, h3, Option.bind_eq_bind, Option.some_bind, Option.none_bind,
      Option.pure_def, Option.some.injEq, reduceCtorEq] at h
  subst h
  rfl

theorem assemble_jal_label (ai : sAssembledInstruction) (args : List CString)
    (i : sAssembledInstruction) (h : assemble_jal ai args = some i) :
    i.label = ai.label := by
  unfold assemble_jal at h
  cases h1 : args[1]? <;> cases h2 : args[2]? <;>
    simp only [h1, h2, Option.bind_eq_bind, Option.some_bind, Option.none_bind,
      Option.pure_def, Option.some.injEq, reduceCtorEq] at h
  subst h
  rfl

theorem map_setb_label (o : Option Nat) (i : sAssembledInstruction)
    (h : o.map (fun b => { callocInstruction with binary := b }) = some i) :
    i.label = none := by
  cases o with
  | none => simp at h
  | some b => simp at h; subst h; rfl

theorem ite_some_label (c : Prop) [Decidable c] (a b : Option sAssembledInstruction)
    (ha : ∀ i, a = some i → i.label = none) (hb : ∀ i, b = some i → i.label = none) :
    ∀ i, (if c then a else b) = some i → i.label = none := by
  intro i h
  by_cases hc : c
  · rw [if_pos hc] at h; exact ha i h
  · rw [if_neg hc] at h; exact hb i h

/-- No encoder sets the definition label. -/
theorem instruction_to_binary_label (args : List CString) :
    ∀ i, _instruction_to_binary args = some i → i.label = none := by
  unfold _instruction_to_binary
  cases args[0]? with
  | none => intro i h; simp at h
  | some opName =>
    simp only
    repeat' apply ite_some_label
    all_goals
      first
      | exact fun i h => map_setb_label _ i h
      | exact fun i h => assemble_branch_label _ _ _ i h
      | exact fun i h => assemble_jal_label _ _ i h
      | (intro i h; simp only [Option.some.injEq] at h; subst h; rfl)

theorem ite_some_chainOk (c : Prop) [Decidable c]
    (a b : Option (List sAssembledInstruction))
    (ha : ∀ x, a = some x → chainOk x) (hb : ∀ x, b = some x → chainOk x) :
    ∀ x, (if c then a else b) = some x → chainOk x := by
  intro x h
  by_cases hc : c
  · rw [if_pos hc] at h; exact ha x h
  · rw [if_neg hc] at h; exact hb x h

theorem chainOk_single (i : sAssembledInstruction) (h : i.label = none) : chainOk [i] :=
  ⟨Or.inl rfl, fun x hx => by simp at hx; rw [hx]; exact h⟩

theorem chainOk_pair (i n : sAssembledInstruction) (hi : i.label = none)
    (hn : n.label = none) : chainOk [i, n] :=
  ⟨Or.inr rfl, fun x hx => by
    simp at hx
    rcases hx with rfl | rfl
    · exact hi
    · exact hn⟩

/-- Every chain of `_psuedo_to_binary` has one or two nodes, none labelled. -/
theorem psuedo_to_binary_chainOk (args : List CString) :
    ∀ c, _psuedo_to_binary args = some c → chainOk c := by
  unfold _psuedo_to_binary
  cases args[0]? with
  | none => intro c h; simp at h
  | some psuedoName =>
    simp only
    refine ite_some_chainOk _ _ _ ?_ (ite_some_chainOk _ _ _ ?_ (ite_some_chainOk _ _ _ ?_
      (ite_some_chainOk _ _ _ ?_ (ite_some_chainOk _ _ _ ?_ (ite_some_chainOk _ _ _ ?_
      (ite_some_chainOk _ _ _ ?_ ?_))))))
    · -- j
      intro c h
      simp only [Option.bind_eq_bind, Option.bind_eq_some, Option.pure_def,
        Option.some.injEq] at h
      obtain ⟨a1, -, i, hi, rfl⟩ := h
      exact chainOk_single i (instruction_to_binary_label _ i hi)
    · -- la
      intro c h
      simp only [Option.bind_eq_bind, Option.bind_eq_some, Option.pure_def,
        Option.some.injEq] at h
      obtain ⟨a1, -, i, hi, a2, -, n, hn, rfl⟩ := h
      exact chainOk_pair _ _ (instruction_to_binary_label _ i hi)
        (instruction_to_binary_label _ n hn)
    · -- li
      intro c h
      simp only [Option.bind_eq_bind, Option.bind_eq_some, Option.pure_def] at h
      obtain ⟨a1, -, a2, -, i, hi, h⟩ := h
      split_ifs at h
      · simp only [Option.bind_eq_some, Option.some.injEq] at h
        obtain ⟨n, hn, rfl⟩ := h
        exact chainOk_pair _ _ (instruction_to_binary_label _ i hi)
          (instruction_to_binary_label _ n hn)
      · simp only [Option.some.injEq] at h
        subst h
        exact chainOk_single i (instruction_to_binary_label _ i hi)
    · -- mv
      intro c h
      simp only [Option.bind_eq_bind, Option.bind_eq_some, Option.pure_def,
        Option.some.injEq] at h
      obtain ⟨a1, -, a2, -, i, hi, rfl⟩ := h
      exact chainOk_single i (instruction_to_binary_label _ i hi)
    · -- neg
      intro c h
      simp only [Option.bind_eq_bind, Option.bind_eq_some, Option.pure_def,
        Option.some.injEq] at h
      obtain ⟨a1, -, a2, -, i, hi, rfl⟩ := h
      exact chainOk_single i (instruction_to_binary_label _ i hi)
    · -- nop
      intro c h
      simp only [Option.bind_eq_bind, Option.bind_eq_some, Option.pure_def,
        Option.some.injEq] at h
      obtain ⟨i, hi, rfl⟩ := h
      exact chainOk_single i (instruction_to_binary_label _ i hi)
    · -- ret
      intro c h
      simp only [Option.bind_eq_bind, Option.bind_eq_some, Option.pure_def,
        Option.some.injEq] at h
      obtain ⟨i, hi, rfl⟩ := h
      exact chainOk_single i (instruction_to_binary_label _ i hi)
    · intro c h
      simp only [Option.some.injEq] at h
      subst h
      exact chainOk_single _ rfl

theorem assemble_line_text (data : List sAssembledData)
    (text : List sAssembledInstruction) (l : line) (h : l.type = .INST) :
    assemble_line { state := .S_TEXT, data := data, text := text } l
      = (line_expansion l.token_listhead).map (fun e =>
          { state := .S_TEXT, data := data, text := text ++ set_head_label l.label e }) := by
  cases h0 : l.token_listhead[0]? with
  | none => simp [assemble_line, line_expansion, h, h0]
  | some opName =>
    by_cases hc : _check_psuedo opName = true
    · cases hp : _psuedo_to_binary l.token_listhead <;>
        simp [assemble_line, line_expansion, h, h0, hc, hp]
    · cases hp : _instruction_to_binary l.token_listhead <;>
        simp [assemble_line, line_expansion, h, h0, hc, hp]

theorem set_head_label_expansion (label : Option CString)
    (e : List sAssembledInstruction) (he : chainOk e) :
    (set_head_label label e).length = e.length ∧
      (set_head_label label e).head?.map (fun i => i.label) = some label ∧
      ∀ i ∈ (set_head_label label e).tail, i.label = none := by
  obtain ⟨hlen, hlab⟩ := he
  cases e with
  | nil => simp at hlen
  | cons i rest =>
    have hi : i.label = none := hlab i (List.mem_cons_self _ _)
    have hrest : ∀ x ∈ rest, x.label = none := fun x hx => hlab x (List.mem_cons_of_mem _ hx)
    cases label with
    | none => exact ⟨rfl, by simp [set_head_label, hi], hrest⟩
    | some lab => exact ⟨rfl, by simp [set_head_label], hrest⟩

theorem line_expansion_chainOk (tokens : List CString) (e : List sAssembledInstruction)
    (h : line_expansion tokens = some e) :
    chainOk e ∧
      (∀ opName, tokens[0]? = some opName → _check_psuedo opName = false → e.length = 1) := by
  unfold line_expansion at h
  cases h0 : tokens[0]? with
  | none => simp [h0] at h
  | some opName =>
    simp only [h0] at h
    by_cases hc : _check_psuedo opName = true
    · simp only [hc, if_true] at h
      exact ⟨psuedo_to_binary_chainOk tokens e h, fun o ho hf => by
        simp only [Option.some.injEq] at ho; subst ho; rw [hc] at hf; simp at hf⟩
    · simp only [hc] at h
      simp only [Bool.false_eq_true, if_false, Option.map_eq_some'] at h
      obtain ⟨i, hi, rfl⟩ := h
      exact ⟨chainOk_single i (instruction_to_binary_label _ i hi), fun _ _ _ => rfl⟩

theorem assemble_lines_text (lines : List line) (hinst : ∀ l ∈ lines, l.type = .INST) :
    ∀ (data : List sAssembledData) (text : List sAssembledInstruction)
      (st1 : AssemblerLoop),
      assemble_lines { state := .S_TEXT, data := data, text := text } lines = some st1 ↔
        ∃ chains, List.Forall₂ isExpansionOf lines chains ∧
          st1 = { state := .S_TEXT, data := data, text := text ++ chains.flatten } := by
  induction lines with
  | nil =>
    intro data text st1
    simp only [assemble_lines, Option.some.injEq, List.forall₂_nil_left_iff]
    constructor
    · rintro rfl; exact ⟨[], rfl, by simp⟩
    · rintro ⟨_, rfl, rfl⟩; simp
  | cons l rest ih =>
    intro data text st1
    have hl : l.type = .INST := hinst l (List.mem_cons_self _ _)
    have hrest : ∀ x ∈ rest, x.type = .INST := fun x hx => hinst x (List.mem_cons_of_mem _ hx)
    simp only [assemble_lines, assemble_line_text data text l hl]
    cases he : line_expansion l.token_listhead with
    | none =>
      simp only [Option.map_none']
      constructor
      · intro h; simp at h
      · rintro ⟨chains, hf, -⟩
        cases hf with
        | cons hhead _ =>
          obtain ⟨e, he', -⟩ := hhead
          rw [he] at he'; simp at he'
    | some e =>
      simp only [Option.map_some']
      rw [ih hrest]
      constructor
      · rintro ⟨chains, hf, rfl⟩
        exact ⟨set_head_label l.label e :: chains, List.Forall₂.cons ⟨e, he, rfl⟩ hf,
          by simp [List.append_assoc]⟩
      · rintro ⟨chains, hf, rfl⟩
        cases hf with
        | cons hhead htail =>
          obtain ⟨e', he', rfl⟩ := hhead
          rw [he] at he'
          simp only [Option.some.injEq] at he'
          subst he'
          exact ⟨_, htail, by simp [List.append_assoc]⟩

/-- C20: for every sequence of instruction lines met in text state, the loop of
`assemble_program` ends with the text sequence extended by the concatenation, in
source order, of one chain per line, each chain being the expansion of its line
with the label of the line set on the head; the length grows by the sum of the
chain lengths; every chain has one or two instructions, exactly one when the
operation name is not a pseudo-instruction; the head of a chain carries the
label of its line and no other instruction of the chain has a definition
label. -/
theorem assemble_text_concatenation (lines : List line)
    (hinst : ∀ l ∈ lines, l.type = .INST)
    (data : List sAssembledData) (text : List sAssembledInstruction) :
    (∀ st1, assemble_lines { state := .S_TEXT, data := data, text := text } lines = some st1 ↔
      ∃ chains, List.Forall₂ isExpansionOf lines chains ∧
        st1 = { state := .S_TEXT, data := data, text := text ++ chains.flatten }) ∧
    (∀ (dir : line) (p : sAssembledProgram), dir.type = .TEXT →
      (assemble_program (dir :: lines) = some p ↔
        ∃ chains, List.Forall₂ isExpansionOf lines chains ∧
          p = { data := [], text := chains.flatten })) ∧
    (∀ chains : List (List sAssembledInstruction),
      (text ++ chains.flatten).length = text.length + (chains.map List.length).sum) ∧
    (∀ l chain, isExpansionOf l chain →
      (chain.length = 1 ∨ chain.length = 2) ∧
      (∀ opName, l.token_listhead[0]? = some opName → _check_psuedo opName = false →
        chain.length = 1) ∧
      chain.head?.map (fun i => i.label) = some l.label ∧
      ∀ i ∈ chain.tail, i.label = none) := by
  refine ⟨assemble_lines_text lines hinst data text, ?_, ?_, ?_⟩
  · intro dir p hdir
    have hstep : assemble_line initialLoop dir
        = some { state := .S_TEXT, data := [], text := [] } := by
      simp [assemble_line, initialLoop, hdir]
    have hrun : assemble_program (dir :: lines)
        = (assemble_lines { state := .S_TEXT, data := [], text := [] } lines).map
            (fun st => { data := st.data, text := st.text }) := by
      show (assemble_lines initialLoop (dir :: lines)).map _ = _
      simp only [assemble_lines, hstep]
    rw [hrun, Option.map_eq_some']
    constructor
    · rintro ⟨st1, hst, rfl⟩
      obtain ⟨chains, hf, rfl⟩ := (assemble_lines_text lines hinst [] [] st1).mp hst
      exact ⟨chains, hf, by simp⟩
    · rintro ⟨chains, hf, rfl⟩
      exact ⟨_, (assemble_lines_text lines hinst [] [] _).mpr ⟨chains, hf, rfl⟩, by simp⟩
  · intro chains
    rw [List.length_append, List.length_flatten]
  · rintro l chain ⟨e, he, rfl⟩
    obtain ⟨hok, hreal⟩ := line_expansion_chainOk _ e he
    obtain ⟨hlen, hhead, htail⟩ := set_head_label_expansion l.label e hok
    refine ⟨by rw [hlen]; exact hok.1, fun o ho hf => by rw [hlen]; exact hreal o ho hf,
      hhead, htail⟩

theorem assemble_text_concatenation_witness :
    assemble_lines { state := .S_TEXT, data := [], text := [] } laAddLines
      = some { state := .S_TEXT, data := [], text :=
          [] ++ [[⟨0x297, some "msg".toList, some "L".toList, .LINKER_LA_AUIPC⟩,
                  ⟨0x28293, some "msg".toList, none, .LINKER_LA_AUIPC⟩],
                 [⟨0x3100B3, none, none, .LINKER_NONE⟩]].flatten } :=
  ((assemble_text_concatenation laAddLines (by decide) [] []).1 _).mpr
    ⟨_, List.Forall₂.cons ⟨[⟨0x297, some "msg".toList, none, .LINKER_LA_AUIPC⟩,
          ⟨0x28293, some "msg".toList, none, .LINKER_LA_AUIPC⟩], by decide, rfl⟩
        (List.Forall₂.cons ⟨[⟨0x3100B3, none, none, .LINKER_NONE⟩], by decide, rfl⟩
          List.Forall₂.nil), rfl⟩

/-- C21 (evaluation): for the all-ones word and width 12 the result `0x1FFF` has
bit 12 set, and for `0x80000000` the result `0x1000` has bit 11 clear and bit 12
set: the two top bits of the value are both placed from position `w - 1` up, so
the result is not below `2 ^ w`. -/
theorem sign_reduce_leaks_bit_w :
    _sign_reduce 0xFFFFFFFF 12 = 0x1FFF ∧ ¬ (_sign_reduce 0xFFFFFFFF 12 < 2 ^ 12) ∧
    Nat.testBit (_sign_reduce 0xFFFFFFFF 12) 12 = true ∧
    _sign_reduce 0x80000000 12 = 0x1000 ∧
    Nat.testBit (_sign_reduce 0x80000000 12) 11 = false ∧
    Nat.testBit (_sign_reduce 0x80000000 12) 12 = true := by
  decide

/-- C22 (evaluation): for the even offset `2048` and the word `0x63`, whose bits
7..11 and 25..31 are clear, `_bind_imm_b_type` leaves bit 7 clear although bit 11
of the offset is set: the word is unchanged and decodes to `0`; for the offset
`-4096` it sets bit 7 although bit 11 of the offset is clear, and the word
decodes to `-2048`. -/
theorem bind_imm_b_type_loses_bit_11 :
    _bind_imm_b_type 0x63 2048 = 0x63 ∧ decodeB (_bind_imm_b_type 0x63 2048) = 0 ∧
    Nat.testBit 2048 11 = true ∧ Nat.testBit (_bind_imm_b_type 0x63 2048) 7 = false ∧
    decodeB (_bind_imm_b_type 0x63 (toU32 (-4096))) = -2048 ∧
    Nat.testBit (toU32 (-4096)) 11 = false ∧
    Nat.testBit (_bind_imm_b_type 0x63 (toU32 (-4096))) 7 = true := by
  decide

/-- C24 (evaluation): the `addi` emitted by `li x5, 0x800` has bits `[20:31]`
equal to `0`, and the one emitted by `li x5, 0xFFF` has them equal to `0x7FF`:
bit 11 of the immediate is not carried into the word. -/
theorem li_addi_drops_bit_11 :
    (assemble_program liBit11Lines).map
        (fun p => p.text.map (fun i => [opcodeOf i.binary, funct3Of i.binary,
          rdOf i.binary, rs1Of i.binary, immIOf i.binary]))
      = some [[0x13, 0, 5, 0, 0], [0x13, 0, 5, 0, 0x7FF]] := by
  decide

/-- C25 (evaluation): for `la x6, msg` the `auipc` is at `TEXT_ADDRESS`, the label
`msg` is recorded at `DATA_ADDRESS + 4`, the offset is `0x0FC00004` and
`offset >> 12` is `0xFC00`; after `link_program` bits `[12:31]` of the `auipc`
word hold `0xF`. -/
theorem la_auipc_immediate_field (uninit : Nat → Nat) (ds ts : Segment) :
    ((assemble_program laDataLines).map (fun p => program_labels p)
      = some [{ label := "msg".toList, address := DATA_ADDRESS + 4 }]) ∧
    (DATA_ADDRESS + 4 + 4294967296 - TEXT_ADDRESS) % 4294967296 = 0x0FC00004 ∧
    (0x0FC00004 >>> 12) % 1048576 = 0xFC00 ∧
    ((linked_text uninit laDataLines ds ts).map
        (fun t => t.head?.map (fun i => (opcodeOf i.binary, immUOf i.binary)))
      = some (some (0x17, 0xF))) := by
  rw [linked_text_defined uninit laDataLines ds ts (by decide)]
  decide

/-- C28 (evaluation): for `.word 1 2` followed by `.word 3` the first payload is
stored at data-segment offsets 8..15 and the second at offsets 12..15; after
linking, offsets 8..15 hold `01 00 00 00 03 00 00 00`, so the second word of the
first item is lost. -/
theorem word_items_overlap :
    assemble_program twoWordItemsLines = some twoWordItemsProgram ∧
    data_stores DATA_ADDRESS twoWordItemsProgram.data
      = [(8, 1), (9, 0), (10, 0), (11, 0), (12, 2), (13, 0), (14, 0), (15, 0),
         (12, 3), (13, 0), (14, 0), (15, 0)] ∧
    ∀ (uninit : Nat → Nat) (ds ts : Segment),
      [8, 9, 10, 11, 12, 13, 14, 15].map
          (link_program uninit twoWordItemsProgram ds ts).data_segment
        = [1, 0, 0, 0, 3, 0, 0, 0] := by
  refine ⟨by decide, by decide, fun uninit ds ts => ?_⟩
  have h : data_stores DATA_ADDRESS twoWordItemsProgram.data
      = [(8, 1), (9, 0), (10, 0), (11, 0), (12, 2), (13, 0), (14, 0), (15, 0),
         (12, 3), (13, 0), (14, 0), (15, 0)] := by decide
  simp only [List.map_cons, List.map_nil, link_program_data_segment, h]
  simp [lastStore]

/-! ## J-type binding -/

theorem lor_eq_add_of_dvd (a b k : Nat) (h : a < 2 ^ k) (hb : 2 ^ k ∣ b) :
    a ||| b = a + b := by
  obtain ⟨c, rfl⟩ := hb
  have := lor_shiftLeft_eq_add a c k h
  rw [Nat.shiftLeft_eq] at this
  rw [Nat.mul_comm, this]

/-- The word `_bind_imm_j_type` produces from a word with bits 12..31 clear, as
a sum of fields of the sign-reduced immediate. -/
theorem bind_imm_j_type_eq (instr v : Nat) (hinstr : instr < 4096) :
    _bind_imm_j_type instr v
      = instr + ((_sign_reduce v 21 / 4096) % 256) * 4096
          + ((_sign_reduce v 21 / 2048) % 2) * 1048576
          + ((_sign_reduce v 21 / 2) % 1024) * 2097152
          + ((_sign_reduce v 21 / 1048576) % 2) * 2147483648 := by
  unfold _bind_imm_j_type
  simp only
  generalize _sign_reduce v 21 = r
  have e1 : (r >>> 1) &&& 0x3FF = (r / 2) % 1024 := by
    rw [show (0x3FF : Nat) = 2 ^ 10 - 1 by norm_num, Nat.and_pow_two_sub_one_eq_mod,
      Nat.shiftRight_eq_div_pow]
  have e2 : (r >>> 12) &&& 0xFF = (r / 4096) % 256 := by
    rw [show (0xFF : Nat) = 2 ^ 8 - 1 by norm_num, Nat.and_pow_two_sub_one_eq_mod,
      Nat.shiftRight_eq_div_pow]
  have e3 : (r >>> 11) &&& 1 = (r / 2048) % 2 := by
    rw [show (1 : Nat) = 2 ^ 1 - 1 by norm_num, Nat.and_pow_two_sub_one_eq_mod,
      Nat.shiftRight_eq_div_pow]
  have e4 : (r >>> 20) &&& 1 = (r / 1048576) % 2 := by
    rw [show (1 : Nat) = 2 ^ 1 - 1 by norm_num, Nat.and_pow_two_sub_one_eq_mod,
      Nat.shiftRight_eq_div_pow]
  rw [e1, e2, e3, e4]
  have hA : (r / 4096) % 256 < 256 := Nat.mod_lt _ (by norm_num)
  have hB : (r / 2048) % 2 < 2 := Nat.mod_lt _ (by norm_num)
  have hC : (r / 2) % 1024 < 1024 := Nat.mod_lt _ (by norm_num)
  generalize (r / 4096) % 256 = A at hA
  generalize (r / 2048) % 2 = B at hB
  generalize (r / 2) % 1024 = C at hC
  generalize (r / 1048576) % 2 = D
  have h1 : (A <<< 12) ||| (B <<< 20) = A * 4096 + B * 1048576 := by
    rw [lor_shiftLeft_eq_add _ _ 20 (by rw [Nat.shiftLeft_eq]; omega), Nat.shiftLeft_eq]
    norm_num
  have h2 : (A * 4096 + B * 1048576) ||| (C <<< 21)
      = A * 4096 + B * 1048576 + C * 2097152 := by
    rw [lor_shiftLeft_eq_add _ _ 21 (by omega)]
    norm_num
  have h3 : (A * 4096 + B * 1048576 + C * 2097152) ||| (D <<< 31)
      = A * 4096 + B * 1048576 + C * 2097152 + D * 2147483648 := by
    rw [lor_shiftLeft_eq_add _ _ 31 (by omega)]
    norm_num
  rw [h1, h2, h3, lor_eq_add_of_dvd instr _ 12 (by simpa using hinstr) (by omega)]
  omega

/-- Field decoding of a J-type word given as a sum of fields. -/
theorem j_type_fields (instr A B C D : Nat) (hinstr : instr < 4096) (hA : A < 256)
    (hB : B < 2) (hC : C < 1024) (hD : D < 2) :
    (instr + A * 4096 + B * 1048576 + C * 2097152 + D * 2147483648) % 4096 = instr ∧
    ((instr + A * 4096 + B * 1048576 + C * 2097152 + D * 2147483648) / 4096) % 256 = A ∧
    ((instr + A * 4096 + B * 1048576 + C * 2097152 + D * 2147483648) / 1048576) % 2 = B ∧
    ((instr + A * 4096 + B * 1048576 + C * 2097152 + D * 2147483648) / 2097152) % 1024
      = C ∧
    ((instr + A * 4096 + B * 1048576 + C * 2097152 + D * 2147483648) / 2147483648) % 2
      = D ∧
    instr + A * 4096 + B * 1048576 + C * 2097152 + D * 2147483648 < 4294967296 := by
  refine ⟨?_, ?_, ?_, ?_, ?_, ?_⟩ <;> omega

/-- The fields `_bind_imm_j_type` extracts from the sign-reduced offset are
those of the offset itself, for an offset in the signed 21-bit range. -/
theorem sign_reduce_21_fields (v : Nat)
    (hv : v < 1048576 ∨ (4294967296 - 1048576 ≤ v ∧ v < 4294967296)) :
    (_sign_reduce v 21 / 4096) % 256 = (v / 4096) % 256 ∧
    (_sign_reduce v 21 / 2048) % 2 = (v / 2048) % 2 ∧
    (_sign_reduce v 21 / 2) % 1024 = (v / 2) % 1024 ∧
    (_sign_reduce v 21 / 1048576) % 2 = (v / 1048576) % 2 := by
  rw [sign_reduce_21]
  have hs : (v / 1073741824) % 4096 = if v < 1048576 then 0 else 3 := by
    split_ifs <;> omega
  rw [hs]
  rcases hv with hv | hv
  · rw [if_pos hv]
    simp only [Nat.zero_mul, Nat.add_zero, Nat.mod_eq_of_lt hv, and_self]
  · rw [if_neg (by omega)]
    refine ⟨?_, ?_, ?_, ?_⟩ <;> omega

/-- C23: for every even jump offset `imm` with `-2 ^ 20 ≤ imm < 2 ^ 20`, taken as
a 32-bit two-complement value, and every word whose bits 12..31 are clear,
`_bind_imm_j_type` leaves bits 0..11 unchanged and sets bits `[12:19]` to
`imm[19:12]`, bit 20 to `imm[11]`, bits `[21:30]` to `imm[10:1]` and bit 31 to
`imm[20]`; decoding and sign-extending the J-type immediate returns `imm`. -/
theorem bind_imm_j_type_roundtrip (instr : Nat) (imm : Int) (hinstr : instr < 4096)
    (hlo : -1048576 ≤ imm) (hhi : imm < 1048576) (heven : imm % 2 = 0) :
    _bind_imm_j_type instr (toU32 imm) % 4096 = instr ∧
    (_bind_imm_j_type instr (toU32 imm) / 4096) % 256 = (toU32 imm / 4096) % 256 ∧
    (_bind_imm_j_type instr (toU32 imm) / 1048576) % 2 = (toU32 imm / 2048) % 2 ∧
    (_bind_imm_j_type instr (toU32 imm) / 2097152) % 1024 = (toU32 imm / 2) % 1024 ∧
    (_bind_imm_j_type instr (toU32 imm) / 2147483648) % 2 = (toU32 imm / 1048576) % 2 ∧
    _bind_imm_j_type instr (toU32 imm) < 4294967296 ∧
    decodeJ (_bind_imm_j_type instr (toU32 imm)) = imm := by
  have h := toU32_cast imm
  have hl := toU32_lt imm
  have hv : toU32 imm < 1048576 ∨
      (4294967296 - 1048576 ≤ toU32 imm ∧ toU32 imm < 4294967296) := by omega
  obtain ⟨fA, fB, fC, fD⟩ := sign_reduce_21_fields (toU32 imm) hv
  rw [bind_imm_j_type_eq instr _ hinstr, fA, fB, fC, fD]
  generalize toU32 imm = v at h hl hv
  have hA : (v / 4096) % 256 < 256 := Nat.mod_lt _ (by norm_num)
  have hB : (v / 2048) % 2 < 2 := Nat.mod_lt _ (by norm_num)
  have hC : (v / 2) % 1024 < 1024 := Nat.mod_lt _ (by norm_num)
  have hD : (v / 1048576) % 2 < 2 := Nat.mod_lt _ (by norm_num)
  have hbits : v % 2097152 = v % 2 + (v / 2) % 1024 * 2 + (v / 2048) % 2 * 2048
      + (v / 4096) % 256 * 4096 + (v / 1048576) % 2 * 1048576 := by omega
  have hDv : (v / 1048576) % 2 = if v < 1048576 then 0 else 1 := by
    split_ifs <;> omega
  obtain ⟨g1, g2, g3, g4, g5, g6⟩ :=
    j_type_fields instr _ _ _ _ hinstr hA hB hC hD
  refine ⟨g1, g2, g3, g4, g5, g6, ?_⟩
  unfold decodeJ
  simp only [g2, g3, g4, g5]
  generalize (v / 4096) % 256 = A at *
  generalize (v / 2048) % 2 = B at *
  generalize (v / 2) % 1024 = C at *
  generalize (v / 1048576) % 2 = D at *
  rcases hv with hv | hv
  · rw [if_pos hv] at hDv
    split_ifs <;> omega
  · rw [if_neg (by omega)] at hDv
    split_ifs <;> omega

theorem bind_imm_j_type_roundtrip_witness :
    _bind_imm_j_type 0xEF (toU32 (-1048576)) % 4096 = 0xEF ∧
    (_bind_imm_j_type 0xEF (toU32 (-1048576)) / 4096) % 256
      = (toU32 (-1048576) / 4096) % 256 ∧
    (_bind_imm_j_type 0xEF (toU32 (-1048576)) / 1048576) % 2
      = (toU32 (-1048576) / 2048) % 2 ∧
    (_bind_imm_j_type 0xEF (toU32 (-1048576)) / 2097152) % 1024
      = (toU32 (-1048576) / 2) % 1024 ∧
    (_bind_imm_j_type 0xEF (toU32 (-1048576)) / 2147483648) % 2
      = (toU32 (-1048576) / 1048576) % 2 ∧
    _bind_imm_j_type 0xEF (toU32 (-1048576)) < 4294967296 ∧
    decodeJ (_bind_imm_j_type 0xEF (toU32 (-1048576))) = -1048576 :=
  bind_imm_j_type_roundtrip 0xEF (-1048576) (by decide) (by decide) (by decide) (by decide)

/-! ## Labels and payloads of data items -/

theorem node_stores_length (base : Nat) (data : List Nat) (n : Nat) :
    (node_stores base data n).length = n := by
  induction n with
  | zero => rfl
  | succ i ih => simp [node_stores, ih]

theorem node_stores_getElem_opt (base : Nat) (data : List Nat) (n i : Nat) (hi : i < n) :
    (node_stores base data n)[i]? = some ((base + i) % 4294967296, data.getD i 0) := by
  induction n with
  | zero => omega
  | succ m ih =>
    simp only [node_stores]
    by_cases h : i < m
    · rw [List.getElem?_append_left (by rw [node_stores_length]; exact h)]
      exact ih h
    · have him : i = m := by omega
      subst him
      rw [List.getElem?_append_right (by rw [node_stores_length]), node_stores_length]
      simp

theorem data_labels_append (pre post : List sAssembledData) :
    ∀ address, data_labels address (pre ++ post)
      = data_labels address pre ++ data_labels (data_end_address address pre) post := by
  induction pre with
  | nil => intro address; rfl
  | cons d rest ih =>
    intro address
    show _ ++ data_labels _ (rest ++ post) = (_ ++ _) ++ _
    rw [ih, List.append_assoc]
    rfl

/-- C27: for every data sequence `pre ++ item :: post` whose item has label `l`,
with `A` the running address after the adjustments for the item, the label list
of `link_program` records `l` at `A`, and the stores `link_program` performs for
the item put payload byte `i` at data-segment offset `A - DATA_ADDRESS + i`
(32-bit arithmetic): payload byte 0 is written at the address `A` recorded for
the label. -/
theorem data_label_is_payload_start (uninit : Nat → Nat) (ds ts : Segment)
    (pre post : List sAssembledData) (text : List sAssembledInstruction)
    (item : sAssembledData) (l : CString) (hl : item.label = some l) :
    (link_program uninit { data := pre ++ item :: post, text := text } ds ts).labels
      = data_labels DATA_ADDRESS pre
        ++ { label := l,
             address := data_node_address (data_end_address DATA_ADDRESS pre) item }
        :: (data_labels (data_node_address (data_end_address DATA_ADDRESS pre) item) post
            ++ text_labels TEXT_ADDRESS text) ∧
    (∀ k, (link_program uninit { data := pre ++ item :: post, text := text } ds ts).data_segment k
      = (lastStore k (data_stores DATA_ADDRESS (pre ++ item :: post))).getD (ds k)) ∧
    data_stores DATA_ADDRESS (pre ++ item :: post)
      = data_stores DATA_ADDRESS pre
        ++ node_stores
            ((data_node_address (data_end_address DATA_ADDRESS pre) item
              + 4294967296 - DATA_ADDRESS) % 4294967296) item.data item.data_len
        ++ data_stores (data_node_address (data_end_address DATA_ADDRESS pre) item) post ∧
    (∀ i, i < item.data_len →
      (node_stores
          ((data_node_address (data_end_address DATA_ADDRESS pre) item
            + 4294967296 - DATA_ADDRESS) % 4294967296) item.data item.data_len)[i]?
        = some (((data_node_address (data_end_address DATA_ADDRESS pre) item
            + 4294967296 - DATA_ADDRESS) % 4294967296 + i) % 4294967296,
          item.data.getD i 0)) ∧
    (DATA_ADDRESS + (data_node_address (data_end_address DATA_ADDRESS pre) item
        + 4294967296 - DATA_ADDRESS) % 4294967296) % 4294967296
      = data_node_address (data_end_address DATA_ADDRESS pre) item := by
  refine ⟨?_, fun k => link_program_data_segment _ _ _ _ k, ?_, ?_, ?_⟩
  · rw [link_program_labels, program_labels_eq]
    show data_labels DATA_ADDRESS (pre ++ item :: post) ++ _ = _
    rw [data_labels_append]
    simp only [data_labels, add_label, hl, List.nil_append, List.append_assoc,
      List.cons_append, List.singleton_append]
  · rw [data_stores_append]
    simp only [data_stores, List.append_assoc]
  · intro i hi
    exact node_stores_getElem_opt _ _ _ i hi
  · have h := data_node_address_lt (data_end_address DATA_ADDRESS pre) item
    generalize data_node_address (data_end_address DATA_ADDRESS pre) item = A at h
    unfold DATA_ADDRESS
    omega

theorem data_label_is_payload_start_witness :
    (link_program zeroUninit
        { data := [] ++ [⟨[1, 0, 0, 0], 4, some "msg".toList, 0, .LINKER_NONE⟩], text := [] }
        zeroSegment zeroSegment).labels
      = [{ label := "msg".toList, address := DATA_ADDRESS + 4 }] ∧
    (node_stores 4 [1, 0, 0, 0] 4)[0]? = some (4, 1) :=
  ⟨(data_label_is_payload_start zeroUninit zeroSegment zeroSegment [] [] []
      ⟨[1, 0, 0, 0], 4, some "msg".toList, 0, .LINKER_NONE⟩ "msg".toList rfl).1,
    by decide⟩

/-! ## Emission of the text segment -/

theorem storeByte_same (seg : Segment) (idx val : Nat) : storeByte seg idx val idx = val := by
  unfold storeByte; rw [if_pos rfl]

theorem storeByte_other (seg : Segment) (idx val x : Nat) (h : x ≠ idx) :
    storeByte seg idx val x = seg x := by
  unfold storeByte; rw [if_neg h]

/-- The offset in the text segment of byte `j` of the instruction at `address`. -/
theorem emit_word_outside (seg : Segment) (address binary x : Nat)
    (h : ∀ j, j < 4 → x ≠ ((address + 4294967296 - TEXT_ADDRESS) % 4294967296 + j) % 4294967296) :
    emit_word seg address binary x = seg x := by
  have h0 : x ≠ (address + 4294967296 - TEXT_ADDRESS) % 4294967296 := by
    have := h 0 (by norm_num)
    omega
  have h1 := h 1 (by norm_num)
  have h2 := h 2 (by norm_num)
  have h3 := h 3 (by norm_num)
  unfold emit_word
  rw [storeByte_other _ _ _ _ h3, storeByte_other _ _ _ _ h2, storeByte_other _ _ _ _ h1,
    storeByte_other _ _ _ _ h0]

theorem emit_word_inside (seg : Segment) (address binary j : Nat) (hj : j < 4) :
    emit_word seg address binary
        (((address + 4294967296 - TEXT_ADDRESS) % 4294967296 + j) % 4294967296)
      = (binary / 256 ^ j) % 256 := by
  have hlt : (address + 4294967296 - TEXT_ADDRESS) % 4294967296 < 4294967296 :=
    Nat.mod_lt _ (by norm_num)
  unfold emit_word
  generalize (address + 4294967296 - TEXT_ADDRESS) % 4294967296 = off at hlt
  interval_cases j
  · rw [storeByte_other _ _ _ _ (by omega), storeByte_other _ _ _ _ (by omega),
      storeByte_other _ _ _ _ (by omega)]
    rw [Nat.add_zero, Nat.mod_eq_of_lt hlt, storeByte_same, Nat.pow_zero, Nat.div_one]
  · rw [storeByte_other _ _ _ _ (by omega), storeByte_other _ _ _ _ (by omega),
      storeByte_same]
    simp [Nat.shiftRight_eq_div_pow]
  · rw [storeByte_other _ _ _ _ (by omega), storeByte_same]
    simp [Nat.shiftRight_eq_div_pow]
  · rw [storeByte_same]
    simp [Nat.shiftRight_eq_div_pow]

/-- Offsets the last loop does not reach keep their content. -/
theorem link_last_loop_outside (uninit : Nat → Nat) (labels : List sLinkedLabel)
    (text : List sAssembledInstruction) :
    ∀ (address : Nat) (seg : Segment) (x : Nat), address < 4294967296 →
      (∀ i j, i < text.length → j < 4 →
        x ≠ (address + 4294967296 - TEXT_ADDRESS + 4 * i + j) % 4294967296) →
      (link_last_loop uninit labels address seg text).1 x = seg x := by
  induction text with
  | nil => intro address seg x _ _; rfl
  | cons node rest ih =>
    intro address seg x ha h
    simp only [link_last_loop]
    rw [ih _ _ x (Nat.mod_lt _ (by norm_num))]
    · apply emit_word_outside
      intro j hj
      have := h 0 j (by simp) hj
      omega
    · intro i j hi hj
      have := h (i + 1) j (by simp; omega) hj
      unfold TEXT_ADDRESS at this ⊢
      omega

/-- The bytes of every instruction word in the text segment after the last
loop, when the instructions fit in the 32-bit offset range. -/
theorem link_last_loop_bytes (uninit : Nat → Nat) (labels : List sLinkedLabel)
    (text : List sAssembledInstruction) :
    ∀ (address : Nat) (seg : Segment), address < 4294967296 →
      4 * text.length ≤ 4294967296 →
      ∀ (k j : Nat) (node : sAssembledInstruction),
        (relocate_all uninit labels address text)[k]? = some node → j < 4 →
        (link_last_loop uninit labels address seg text).1
            ((address + 4294967296 - TEXT_ADDRESS + 4 * k + j) % 4294967296)
          = (node.binary / 256 ^ j) % 256 := by
  induction text with
  | nil => intro address seg _ _ k j node hk; simp [relocate_all] at hk
  | cons n rest ih =>
    intro address seg ha hlen k j node hk hj
    simp only [List.length_cons] at hlen
    simp only [link_last_loop]
    cases k with
    | zero =>
      simp only [relocate_all, List.getElem?_cons_zero, Option.some.injEq] at hk
      subst hk
      rw [link_last_loop_outside _ _ _ _ _ _ (Nat.mod_lt _ (by norm_num))]
      · have e : (address + 4294967296 - TEXT_ADDRESS + 4 * 0 + j) % 4294967296
            = ((address + 4294967296 - TEXT_ADDRESS) % 4294967296 + j) % 4294967296 := by
          omega
        rw [e]
        exact emit_word_inside _ _ _ j hj
      · intro i j' hi hj'
        unfold TEXT_ADDRESS
        omega
    | succ k =>
      simp only [relocate_all, List.getElem?_cons_succ] at hk
      have := ih ((address + 4) % 4294967296)
        (emit_word seg address (relocate uninit labels address n).binary)
        (Nat.mod_lt _ (by norm_num)) (by omega) k j node hk hj
      have e : (address + 4294967296 - TEXT_ADDRESS + 4 * (k + 1) + j) % 4294967296
          = ((address + 4) % 4294967296 + 4294967296 - TEXT_ADDRESS + 4 * k + j)
              % 4294967296 := by
        unfold TEXT_ADDRESS
        omega
      rw [e]
      exact this

theorem link_last_loop_append (uninit : Nat → Nat) (labels : List sLinkedLabel)
    (pre post : List sAssembledInstruction) :
    ∀ (address : Nat) (seg : Segment), address < 4294967296 →
      (link_last_loop uninit labels address seg (pre ++ post)).1
        = (link_last_loop uninit labels ((address + 4 * pre.length) % 4294967296)
            (link_last_loop uninit labels address seg pre).1 post).1 := by
  induction pre with
  | nil =>
    intro address seg ha
    simp only [List.nil_append, List.length_nil, Nat.mul_zero, Nat.add_zero, link_last_loop]
    rw [Nat.mod_eq_of_lt ha]
  | cons n rest ih =>
    intro address seg ha
    show (link_last_loop uninit labels ((address + 4) % 4294967296)
        (emit_word seg address (relocate uninit labels address n).binary) (rest ++ post)).1
      = (link_last_loop uninit labels ((address + 4 * (rest.length + 1)) % 4294967296)
          (link_last_loop uninit labels ((address + 4) % 4294967296)
            (emit_word seg address (relocate uninit labels address n).binary) rest).1 post).1
    rw [ih _ _ (Nat.mod_lt _ (by norm_num))]
    have e : ((address + 4) % 4294967296 + 4 * rest.length) % 4294967296
        = (address + 4 * (rest.length + 1)) % 4294967296 := by omega
    rw [e]

theorem relocate_no_target (uninit : Nat → Nat) (labels : List sLinkedLabel)
    (address : Nat) (node : sAssembledInstruction) (h : node.target_label = none) :
    relocate uninit labels address node = node := by
  unfold relocate
  rw [h]

/-- The text segment `link_program` leaves. -/
theorem link_program_text_segment (uninit : Nat → Nat) (program : sAssembledProgram)
    (ds ts : Segment) :
    (link_program uninit program ds ts).text_segment
      = (link_last_loop uninit (program_labels program) TEXT_ADDRESS ts program.text).1 := by
  have h := link_program_labels uninit program ds ts
  simp only [link_program] at h ⊢
  rw [h]

/-- The bytes of the last instruction of a chain in the text segment. -/
theorem last_instruction_bytes (uninit : Nat → Nat) (labels : List sLinkedLabel)
    (pre : List sAssembledInstruction) (last : sAssembledInstruction) (seg : Segment)
    (address j : Nat) (ha : address < 4294967296) (hj : j < 4) :
    (link_last_loop uninit labels address seg (pre ++ [last])).1
        ((((address + 4 * pre.length) % 4294967296 + 4294967296 - TEXT_ADDRESS) % 4294967296
          + j) % 4294967296)
      = ((relocate uninit labels ((address + 4 * pre.length) % 4294967296) last).binary
          / 256 ^ j) % 256 := by
  rw [link_last_loop_append _ _ _ _ _ _ ha]
  exact emit_word_inside _ _ _ j hj

/-- C26 (counterexample): in a text sequence of `2 ^ 30 + 1` instructions with all
target labels absent, the final word of instruction 0 is `0x13`, but after
`link_program` the text-segment byte at offset 0 is `0x33`, the low byte of the
last instruction: the 32-bit offset of instruction `2 ^ 30` is 0 again. -/
theorem text_segment_wraps :
    wrappingProgram.text.length = 1073741824 + 1 ∧
    (link_program zeroUninit wrappingProgram zeroSegment zeroSegment).text[0]?
      = some nopNode ∧
    nopNode.binary % 256 = 0x13 ∧
    (link_program zeroUninit wrappingProgram zeroSegment zeroSegment).text_segment 0 = 0x33 := by
  refine ⟨?_, ?_, rfl, ?_⟩
  · show (List.replicate 1073741824 nopNode ++ [addZeroNode]).length = _
    rw [List.length_append, List.length_replicate]
    rfl
  · rw [link_program_text, relocate_all_getElem_opt _ _ _ _ _ (by decide)]
    have h0 : wrappingProgram.text[0]? = some nopNode := by
      show (List.replicate 1073741824 nopNode ++ [addZeroNode])[0]? = _
      rw [List.getElem?_append_left (by rw [List.length_replicate]; norm_num),
        List.getElem?_replicate]
      rfl
    rw [h0]
    rfl
  · rw [link_program_text_segment]
    have h := last_instruction_bytes zeroUninit (program_labels wrappingProgram)
      (List.replicate 1073741824 nopNode) addZeroNode zeroSegment TEXT_ADDRESS 0
      (by decide) (by norm_num)
    rw [List.length_replicate, relocate_no_target _ _ _ _ rfl] at h
    have e : (((TEXT_ADDRESS + 4 * 1073741824) % 4294967296 + 4294967296 - TEXT_ADDRESS)
        % 4294967296 + 0) % 4294967296 = 0 := by decide
    rw [e] at h
    exact h

/-- C26 (amended): for every text sequence of at most `2 ^ 30` instructions, after
`link_program` the text-segment bytes at offsets `4 * k .. 4 * k + 3` are the four
bytes of the final word of instruction `k`, least significant first, and an
instruction without target label keeps the word the assembler produced. -/
theorem text_segment_bytes (uninit : Nat → Nat) (program : sAssembledProgram)
    (ds ts : Segment) (hn : program.text.length ≤ 1073741824) :
    (∀ (k : Nat) (node : sAssembledInstruction),
      (link_program uninit program ds ts).text[k]? = some node →
      ∀ j, j < 4 →
        (link_program uninit program ds ts).text_segment (4 * k + j)
          = (node.binary / 256 ^ j) % 256) ∧
    (∀ (k : Nat) (node : sAssembledInstruction),
      program.text[k]? = some node → node.target_label = none →
      (link_program uninit program ds ts).text[k]? = some node) := by
  rw [link_program_text_segment, link_program_text]
  constructor
  · intro k node hk j hj
    have hklt : k < program.text.length := by
      have h := List.getElem?_eq_some_iff.mp hk
      obtain ⟨hlt, -⟩ := h
      rw [relocate_all_length] at hlt
      exact hlt
    have h := link_last_loop_bytes uninit (program_labels program) program.text
      TEXT_ADDRESS ts (by decide) (by omega) k j node hk hj
    have e : (TEXT_ADDRESS + 4294967296 - TEXT_ADDRESS + 4 * k + j) % 4294967296
        = 4 * k + j := by
      unfold TEXT_ADDRESS
      omega
    rw [e] at h
    exact h
  · intro k node hk ht
    rw [relocate_all_getElem_opt _ _ _ _ _ (by decide), hk, Option.map_some',
      relocate_no_target _ _ _ _ ht]

theorem text_segment_bytes_witness :
    (link_program zeroUninit
        { data := [], text := [⟨0xEF, some "L".toList, none, .LINKER_JAL⟩,
                              ⟨0x13, none, some "L".toList, .LINKER_NONE⟩] }
        zeroSegment zeroSegment).text_segment (4 * 0 + 2)
      = (0x8000EF / 256 ^ 2) % 256 :=
  (text_segment_bytes zeroUninit
      { data := [], text := [⟨0xEF, some "L".toList, none, .LINKER_JAL⟩,
                            ⟨0x13, none, some "L".toList, .LINKER_NONE⟩] }
      zeroSegment zeroSegment (by decide)).1 0
    ⟨0x8000EF, some "L".toList, none, .LINKER_JAL⟩ (by decide) 2 (by decide)

/-! ## Immediate literals -/

theorem digitVal_digitChar (d : Fin 16) :
    digitVal (Nat.digitChar d.val) = some d.val ∧ isspace (Nat.digitChar d.val) = false ∧
    Nat.digitChar d.val ≠ '-' ∧ Nat.digitChar d.val ≠ '+' ∧ Nat.digitChar d.val ≠ 'x' ∧
    Nat.digitChar d.val ≠ 'X' ∧ (d.val < 10 → Nat.digitChar d.val ≠ 'b') := by
  revert d
  decide

theorem digitIn_digitChar (b d : Nat) (hd : d < b) (hb : b ≤ 16) :
    digitIn b (Nat.digitChar d) = some d := by
  have h := (digitVal_digitChar ⟨d, by omega⟩).1
  simp only at h
  unfold digitIn
  rw [h]
  simp [hd]

theorem strtol_digits_toDigitsCore (b : Nat) (hb2 : 2 ≤ b) (hb16 : b ≤ 16) (fuel : Nat) :
    ∀ (n : Nat) (ds : CString), n < fuel →
      strtol_digits b (Nat.toDigitsCore b fuel n ds) 0 = strtol_digits b ds n := by
  induction fuel with
  | zero => intro n ds h; omega
  | succ fuel ih =>
    intro n ds h
    have hmod : n % b < b := Nat.mod_lt _ (by omega)
    unfold Nat.toDigitsCore
    simp only
    by_cases h0 : n / b = 0
    · rw [if_pos h0]
      have hn : n % b = n := by
        rw [Nat.mod_eq_of_lt]
        exact (Nat.div_eq_zero_iff (by omega)).mp h0
      simp only [strtol_digits, digitIn_digitChar b _ hmod hb16]
      rw [hn, Nat.zero_mul, Nat.zero_add]
    · rw [if_neg h0]
      have hlt : n / b < fuel := by
        have : n / b < n := Nat.div_lt_self (by
          rcases Nat.eq_zero_or_pos n with h | h
          · subst h; simp at h0
          · exact h) (by omega)
        omega
      rw [ih _ _ hlt]
      simp only [strtol_digits, digitIn_digitChar b _ hmod hb16]
      rw [Nat.div_add_mod' n b]

theorem strtol_plain (base : Nat) (c : Char) (t : CString)
    (hspace : isspace c = false) (hminus : c ≠ '-') (hplus : c ≠ '+')
    (hdig : (digitIn base c).isSome = true)
    (hx : ∀ x t1, t = x :: t1 → x ≠ 'x' ∧ x ≠ 'X') :
    strtol (c :: t) base
      = (max LONG_MIN (min LONG_MAX ((strtol_digits base (c :: t) 0).1 : Int)),
         (strtol_digits base (c :: t) 0).2) := by
  unfold strtol
  have hs : skipSpaces (c :: t) = c :: t := by simp [skipSpaces, hspace]
  simp only [hs]
  have hpl : (c == '+') = false := by simp [hplus]
  have hneg : (c == '-') = false := by simp [hminus]
  simp only [hpl, hneg, Bool.or_self, Bool.false_eq_true, if_false]
  rcases t with _ | ⟨x, _ | ⟨d, t2⟩⟩
  · simp only [hdig, if_true]
  · simp only [hdig, if_true]
  · obtain ⟨h1, h2⟩ := hx x (d :: t2) rfl
    simp only [h1, h2, or_self, false_and, and_false, if_false, hdig, if_true]

theorem strtol_minus (base : Nat) (c : Char) (t : CString)
    (hdig : (digitIn base c).isSome = true)
    (hx : ∀ x t1, t = x :: t1 → x ≠ 'x' ∧ x ≠ 'X') :
    strtol ('-' :: c :: t) base
      = (max LONG_MIN (min LONG_MAX (-((strtol_digits base (c :: t) 0).1 : Int))),
         (strtol_digits base (c :: t) 0).2) := by
  unfold strtol
  have hs : skipSpaces ('-' :: c :: t) = '-' :: c :: t := by
    have : isspace '-' = false := by decide
    simp [skipSpaces, this]
  simp only [hs, beq_self_eq_true, Bool.true_or, if_true]
  rcases t with _ | ⟨x, _ | ⟨d, t2⟩⟩
  · simp only [hdig, if_true]
  · simp only [hdig, if_true]
  · obtain ⟨h1, h2⟩ := hx x (d :: t2) rfl
    simp only [h1, h2, or_self, false_and, and_false, if_false, hdig, if_true]

theorem toDigitsCore_append (b fuel : Nat) :
    ∀ (n : Nat) (ds : CString),
      Nat.toDigitsCore b fuel n ds = Nat.toDigitsCore b fuel n [] ++ ds := by
  induction fuel with
  | zero => intro n ds; rfl
  | succ fuel ih =>
    intro n ds
    unfold Nat.toDigitsCore
    simp only
    by_cases h0 : n / b = 0
    · simp only [h0, if_true, List.cons_append, List.nil_append]
    · simp only [h0, if_false]
      rw [ih _ (Nat.digitChar (n % b) :: ds), ih _ [Nat.digitChar (n % b)]]
      simp

/-- Every character of a rendering is the digit character of a digit below the
base. -/
theorem toDigitsCore_chars (b : Nat) (hb : 0 < b) (fuel : Nat) :
    ∀ (n : Nat), ∀ c ∈ Nat.toDigitsCore b fuel n [], ∃ d, d < b ∧ c = Nat.digitChar d := by
  induction fuel with
  | zero => intro n c hc; simp [Nat.toDigitsCore] at hc
  | succ fuel ih =>
    intro n c hc
    unfold Nat.toDigitsCore at hc
    simp only at hc
    by_cases h0 : n / b = 0
    · simp only [h0, if_true, List.mem_singleton] at hc
      exact ⟨n % b, Nat.mod_lt _ hb, hc⟩
    · simp only [h0, if_false] at hc
      rw [toDigitsCore_append] at hc
      rcases List.mem_append.mp hc with h | h
      · exact ih _ c h
      · simp only [List.mem_singleton] at h
        exact ⟨n % b, Nat.mod_lt _ hb, h⟩

theorem toDigits_ne_nil (b n : Nat) : Nat.toDigits b n ≠ [] := by
  unfold Nat.toDigits Nat.toDigitsCore
  simp only
  by_cases h0 : n / b = 0
  · simp [h0]
  · simp only [h0, if_false]
    rw [toDigitsCore_append]
    simp

theorem strtol_digits_rest (b n : Nat) (rest : CString)
    (hrest : rest = [] ∨ ∃ t, rest = '(' :: t) :
    strtol_digits b rest n = (n, rest) := by
  rcases hrest with rfl | ⟨t, rfl⟩
  · rfl
  · have h : digitIn b '(' = none := by
      have hv : digitVal '(' = none := by decide
      simp [digitIn, hv]
    simp only [strtol_digits, h]

theorem clamp_small (n : Nat) (hn : n ≤ 2147483648) :
    max LONG_MIN (min LONG_MAX (n : Int)) = n ∧
    max LONG_MIN (min LONG_MAX (-(n : Int))) = -(n : Int) := by
  unfold LONG_MIN LONG_MAX
  constructor
  · rw [min_eq_right (by omega), max_eq_right (by omega)]
  · rw [min_eq_right (by omega), max_eq_right (by omega)]

/-- The model of `strtol` on the rendering of `n` in base 2, 10 or 16, followed
by nothing or by a remainder that starts with an opening parenthesis. -/
theorem strtol_rendering (b n : Nat) (hb : b = 2 ∨ b = 10 ∨ b = 16) (rest : CString)
    (hrest : rest = [] ∨ ∃ t, rest = '(' :: t) (hn : n ≤ 2147483648) :
    strtol (Nat.toDigits b n ++ rest) b = ((n : Int), rest) ∧
    strtol ('-' :: (Nat.toDigits b n ++ rest)) b = (-(n : Int), rest) := by
  have hb2 : 2 ≤ b := by omega
  have hb16 : b ≤ 16 := by omega
  have hchars := toDigitsCore_chars b (by omega) (n + 1) n
  have hval : strtol_digits b (Nat.toDigits b n ++ rest) 0 = (n, rest) := by
    unfold Nat.toDigits
    rw [← toDigitsCore_append, strtol_digits_toDigitsCore b hb2 hb16 _ _ _ (by omega)]
    exact strtol_digits_rest b n rest hrest
  have hne := toDigits_ne_nil b n
  change ∀ c ∈ Nat.toDigits b n, _ at hchars
  cases hd : Nat.toDigits b n with
  | nil => exact absurd hd hne
  | cons c t =>
    rw [hd] at hchars hval
    obtain ⟨d, hdlt, hc⟩ := hchars c (List.mem_cons_self _ _)
    obtain ⟨-, hsp, hmi, hpl, -, -, -⟩ := digitVal_digitChar ⟨d, by omega⟩
    simp only at hsp hmi hpl
    have hdig : (digitIn b c).isSome = true := by
      rw [hc, digitIn_digitChar b d hdlt hb16]; rfl
    have hx : ∀ x t1, t ++ rest = x :: t1 → x ≠ 'x' ∧ x ≠ 'X' := by
      intro x t1 h
      cases t with
      | nil =>
        rcases hrest with rfl | ⟨t', rfl⟩
        · simp at h
        · simp only [List.nil_append, List.cons.injEq] at h
          rw [← h.1]
          decide
      | cons y t' =>
        simp only [List.cons_append, List.cons.injEq] at h
        obtain ⟨e, he, hy⟩ := hchars y (List.mem_cons_of_mem _ (List.mem_cons_self _ _))
        obtain ⟨-, -, -, -, hx1, hx2, -⟩ := digitVal_digitChar ⟨e, by omega⟩
        simp only at hx1 hx2
        rw [← h.1, hy]
        exact ⟨hx1, hx2⟩
    obtain ⟨hc1, hc2⟩ := clamp_small n hn
    constructor
    · show strtol (c :: (t ++ rest)) b = _
      rw [strtol_plain b c (t ++ rest) (hc ▸ hsp) (hc ▸ hmi) (hc ▸ hpl) hdig hx]
      show (max LONG_MIN (min LONG_MAX ((strtol_digits b (c :: t ++ rest) 0).1 : Int)),
        (strtol_digits b (c :: t ++ rest) 0).2) = _
      rw [hval, hc1]
    · show strtol ('-' :: c :: (t ++ rest)) b = _
      rw [strtol_minus b c (t ++ rest) hdig hx]
      show (max LONG_MIN (min LONG_MAX (-((strtol_digits b (c :: t ++ rest) 0).1 : Int))),
        (strtol_digits b (c :: t ++ rest) 0).2) = _
      rw [hval, hc2]

theorem get_imm_eq_fst (s : CString) : _get_imm s = (_get_imm_and_ptr s).1 := by
  unfold _get_imm _get_imm_and_ptr
  split_ifs <;> rfl

theorem toInt32_small (n : Nat) :
    (n < 2147483648 → toInt32 (n : Int) = n) ∧
    (n ≤ 2147483648 → toInt32 (-(n : Int)) = -(n : Int)) := by
  unfold toInt32
  constructor <;> intro h <;> omega

theorem startsWith_decimal (n : Nat) (rest : CString)
    (hrest : rest = [] ∨ ∃ t, rest = '(' :: t) :
    startsWith (Nat.toDigits 10 n ++ rest) "0x".toList = false ∧
    startsWith (Nat.toDigits 10 n ++ rest) "0b".toList = false := by
  have hchars := toDigitsCore_chars 10 (by norm_num) (n + 1) n
  change ∀ c ∈ Nat.toDigits 10 n, _ at hchars
  have hne := toDigits_ne_nil 10 n
  cases hd : Nat.toDigits 10 n with
  | nil => exact absurd hd hne
  | cons c t =>
    rw [hd] at hchars
    have key : ∀ x t1, t ++ rest = x :: t1 → x ≠ 'x' ∧ x ≠ 'b' := by
      intro x t1 h
      cases t with
      | nil =>
        rcases hrest with rfl | ⟨t', rfl⟩
        · simp at h
        · simp only [List.nil_append, List.cons.injEq] at h
          rw [← h.1]
          decide
      | cons y t' =>
        simp only [List.cons_append, List.cons.injEq] at h
        obtain ⟨e, he, hy⟩ := hchars y (List.mem_cons_of_mem _ (List.mem_cons_self _ _))
        obtain ⟨-, -, -, -, hx1, -, hb⟩ := digitVal_digitChar ⟨e, by omega⟩
        simp only at hx1 hb
        rw [← h.1, hy]
        exact ⟨hx1, hb he⟩
    show startsWith (c :: (t ++ rest)) ['0', 'x'] = false ∧
      startsWith (c :: (t ++ rest)) ['0', 'b'] = false
    cases hts : t ++ rest with
    | nil => simp [startsWith]
    | cons x t1 =>
      obtain ⟨h1, h2⟩ := key x t1 hts
      simp [startsWith, h1, h2]

/-- The result of `_get_imm_and_ptr` on each rendering of `n`, followed by nothing
or by a remainder that starts with an opening parenthesis. -/
theorem get_imm_and_ptr_rendering (n : Nat) (rest : CString)
    (hrest : rest = [] ∨ ∃ t, rest = '(' :: t) (hn : n < 2147483648) :
    _get_imm_and_ptr (decimalOf n ++ rest) = ((n : Int), rest) ∧
    _get_imm_and_ptr (hexOf n ++ rest) = ((n : Int), rest) ∧
    _get_imm_and_ptr (binaryOf n ++ rest) = ((n : Int), rest) ∧
    _get_imm_and_ptr ('-' :: decimalOf n ++ rest) = (-(n : Int), rest) := by
  obtain ⟨hpos, hneg⟩ := toInt32_small n
  have h10 := strtol_rendering 10 n (by norm_num) rest hrest (by omega)
  have h16 := strtol_rendering 16 n (by norm_num) rest hrest (by omega)
  have h2 := strtol_rendering 2 n (by norm_num) rest hrest (by omega)
  obtain ⟨hs1, hs2⟩ := startsWith_decimal n rest hrest
  refine ⟨?_, ?_, ?_, ?_⟩
  · unfold _get_imm_and_ptr decimalOf
    rw [hs1, hs2]
    simp only [Bool.false_eq_true, if_false, h10.1, hpos hn]
  · unfold _get_imm_and_ptr hexOf
    have hs : startsWith ('0' :: 'x' :: Nat.toDigits 16 n ++ rest) "0x".toList = true := by
      simp [startsWith]
    rw [hs]
    simp only [if_true]
    show (toInt32 (strtol (Nat.toDigits 16 n ++ rest) 16).1,
      (strtol (Nat.toDigits 16 n ++ rest) 16).2) = _
    rw [h16.1, hpos hn]
  · unfold _get_imm_and_ptr binaryOf
    have hsx : startsWith ('0' :: 'b' :: Nat.toDigits 2 n ++ rest) "0x".toList = false := by
      simp [startsWith]
    have hsb : startsWith ('0' :: 'b' :: Nat.toDigits 2 n ++ rest) "0b".toList = true := by
      simp [startsWith]
    rw [hsx, hsb]
    simp only [Bool.false_eq_true, if_false, if_true]
    show (toInt32 (strtol (Nat.toDigits 2 n ++ rest) 2).1,
      (strtol (Nat.toDigits 2 n ++ rest) 2).2) = _
    rw [h2.1, hpos hn]
  · unfold _get_imm_and_ptr decimalOf
    have hsx : startsWith ('-' :: Nat.toDigits 10 n ++ rest) "0x".toList = false := by
      simp [startsWith]
    have hsb : startsWith ('-' :: Nat.toDigits 10 n ++ rest) "0b".toList = false := by
      simp [startsWith]
    rw [hsx, hsb]
    simp only [Bool.false_eq_true, if_false]
    show (toInt32 (strtol ('-' :: (Nat.toDigits 10 n ++ rest)) 10).1,
      (strtol ('-' :: (Nat.toDigits 10 n ++ rest)) 10).2) = _
    rw [h10.2, hneg (by omega)]

/-- C29: for every `n < 2 ^ 31`, `_get_imm` returns `n` for the decimal rendering
of `n`, for `0x` followed by its hexadecimal digits and for `0b` followed by its
binary digits, and `-n` for the decimal rendering with a leading minus sign; on a
memory operand made of any of these followed by a parenthesised register,
`_get_imm_and_ptr` returns the same number as `_get_imm` on the literal and the
remainder pointer at the parenthesised suffix. -/
theorem get_imm_literals (n : Nat) (hn : n < 2147483648) :
    decimalOf n = (Nat.repr n).toList ∧
    _get_imm (decimalOf n) = (n : Int) ∧
    _get_imm (hexOf n) = (n : Int) ∧
    _get_imm (binaryOf n) = (n : Int) ∧
    _get_imm ('-' :: decimalOf n) = -(n : Int) ∧
    ∀ reg : CString,
      _get_imm_and_ptr (decimalOf n ++ parenthesised reg)
        = (_get_imm (decimalOf n), parenthesised reg) ∧
      _get_imm_and_ptr (hexOf n ++ parenthesised reg)
        = (_get_imm (hexOf n), parenthesised reg) ∧
      _get_imm_and_ptr (binaryOf n ++ parenthesised reg)
        = (_get_imm (binaryOf n), parenthesised reg) ∧
      _get_imm_and_ptr ('-' :: decimalOf n ++ parenthesised reg)
        = (_get_imm ('-' :: decimalOf n), parenthesised reg) := by
  obtain ⟨a1, a2, a3, a4⟩ := get_imm_and_ptr_rendering n [] (Or.inl rfl) hn
  simp only [List.append_nil] at a1 a2 a3 a4
  have e1 : _get_imm (decimalOf n) = (n : Int) := by rw [get_imm_eq_fst, a1]
  have e2 : _get_imm (hexOf n) = (n : Int) := by rw [get_imm_eq_fst, a2]
  have e3 : _get_imm (binaryOf n) = (n : Int) := by rw [get_imm_eq_fst, a3]
  have e4 : _get_imm ('-' :: decimalOf n) = -(n : Int) := by rw [get_imm_eq_fst, a4]
  refine ⟨rfl, e1, e2, e3, e4, fun reg => ?_⟩
  obtain ⟨b1, b2, b3, b4⟩ := get_imm_and_ptr_rendering n (parenthesised reg)
    (Or.inr ⟨reg ++ [')'], rfl⟩) hn
  rw [e1, e2, e3, e4]
  exact ⟨b1, b2, b3, b4⟩

theorem get_imm_literals_witness :
    _get_imm "255".toList = 255 ∧ _get_imm "0xff".toList = 255 ∧
    _get_imm "0b11111111".toList = 255 ∧ _get_imm "-255".toList = -255 ∧
    _get_imm_and_ptr "0xff(sp)".toList = (_get_imm "0xff".toList, "(sp)".toList) :=
  ⟨(get_imm_literals 255 (by decide)).2.1, (get_imm_literals 255 (by decide)).2.2.1,
    (get_imm_literals 255 (by decide)).2.2.2.1, (get_imm_literals 255 (by decide)).2.2.2.2.1,
    ((get_imm_literals 255 (by decide)).2.2.2.2.2 "sp".toList).2.1⟩

end RiscvAsm
